import Mathlib

/-!
Verification development for the rvello display-list renderer
(crates/rvello/src/lib.rs).

The embedding models:
  * the binary display-list decoder (`Decoder` / `RendererHandle::apply`),
  * the text measuring and wrapping pipeline (`measure_text_width`,
    `wrap_text_lines`, `align_offset`),
  * surface resizing and GPU cache invalidation (`RendererHandle::resize`),
  * the swap-chain acquisition error mapping in `RendererHandle::render`.

Numeric model: `f32` values are modelled by `Rf32`, an exact-rational carrier
with explicit NaN and signed infinities. The special-value behaviour of the
Rust operations used by the code (NaN propagation in `*`, Rust `clamp`
keeping NaN, `round` half-away-from-zero, the saturating `as u32` cast with
NaN mapping to 0, IEEE comparisons) is modelled exactly; finite arithmetic is
exact over `ℚ`.  External collaborators (the SVG path parser of kurbo, the
skrifa font tables, the wgpu surface) are parameters of the model.
-/

/-- Model of an `f32` value: NaN, a signed infinity, or an exact finite
rational. The sign of zero is not tracked (it is unobservable in the code
under verification). -/
inductive Rf32 where
  | nan : Rf32
  | inf (neg : Bool) : Rf32
  | fin (q : ℚ) : Rf32
deriving DecidableEq

/-- The largest finite `f32`, `f32::MAX = (2^24 - 1) * 2^104`, as a rational. -/
def f32MaxQ : ℚ := (2 ^ 24 - 1) * 2 ^ 104

/-- The largest `u32` value. -/
def u32Max : ℕ := 4294967295

/-- IEEE-754 `<` on modelled `f32` values: any comparison with NaN is false. -/
def Rf32.lt : Rf32 → Rf32 → Bool
  | .nan, _ => false
  | _, .nan => false
  | .inf s, .inf t => s && !t
  | .inf s, .fin _ => s
  | .fin _, .inf t => !t
  | .fin p, .fin q => decide (p < q)

/-- Whether the value is finite (neither NaN nor an infinity). -/
def Rf32.isFinite : Rf32 → Bool
  | .fin _ => true
  | _ => false

/-- The rational value of a finite `Rf32`; 0 for NaN and infinities (only
used under an `isFinite` guard). -/
def Rf32.toQ : Rf32 → ℚ
  | .fin q => q
  | _ => 0

/-- IEEE-754 `f32` multiplication on the model: NaN propagates, infinity
times zero is NaN, signs combine; finite products are exact rationals. -/
def Rf32.mul : Rf32 → Rf32 → Rf32
  | .nan, _ => .nan
  | _, .nan => .nan
  | .inf s, .inf t => .inf (Bool.xor s t)
  | .inf s, .fin q => if q = 0 then .nan else .inf (Bool.xor s (decide (q < 0)))
  | .fin q, .inf t => if q = 0 then .nan else .inf (Bool.xor (decide (q < 0)) t)
  | .fin p, .fin q => .fin (p * q)

/-- IEEE-754 `f32` addition on the model: NaN propagates, opposite
infinities give NaN; finite sums are exact rationals. -/
def Rf32.add : Rf32 → Rf32 → Rf32
  | .nan, _ => .nan
  | _, .nan => .nan
  | .inf s, .inf t => if s = t then .inf s else .nan
  | .inf s, .fin _ => .inf s
  | .fin _, .inf t => .inf t
  | .fin p, .fin q => .fin (p + q)

/-- Rounding half away from zero on rationals, the semantics of Rust's
`f32::round`. -/
def roundAwayQ (q : ℚ) : ℤ :=
  if 0 ≤ q then ⌊q + 1 / 2⌋ else -⌊-q + 1 / 2⌋

/-- Rust `f32::round` on the model: NaN and infinities are fixed points,
finite values round half away from zero. -/
def Rf32.round : Rf32 → Rf32
  | .nan => .nan
  | .inf s => .inf s
  | .fin q => .fin (roundAwayQ q : ℤ)

/-- Rust `f32::clamp(lo, hi)`: `if self < lo { lo } else if self > hi { hi }
else { self }`; in particular a NaN input stays NaN. -/
def rustClamp (x lo hi : Rf32) : Rf32 :=
  if x.lt lo then lo else if hi.lt x then hi else x

/-- Rust `f32::max`: if one argument is NaN the other is returned, otherwise
the larger value. -/
def rustMaxF (a b : Rf32) : Rf32 :=
  match a, b with
  | .nan, y => y
  | x, .nan => x
  | x, y => if x.lt y then y else x

/-- Rust's saturating `as u32` cast on `f32`: NaN maps to 0, the value is
truncated toward zero and saturated into `[0, u32::MAX]`. -/
def castU32 : Rf32 → ℕ
  | .nan => 0
  | .inf s => if s then 0 else u32Max
  | .fin q => if q ≤ 0 then 0 else min u32Max (Int.toNat ⌊q⌋)

/-- The alpha clamp `(a).clamp(0.0, 1.0)` used on every emitted color. -/
def clamp01 (x : Rf32) : Rf32 := rustClamp x (.fin 0) (.fin 1)

/-- Extracts the value of a finite positive `f32`, the guard
`x.is_finite() && x > 0.0` used repeatedly by the code. -/
def finPos : Rf32 → Option ℚ
  | .fin q => if 0 < q then some q else none
  | _ => none

/-- Decodes the 32-bit IEEE-754 pattern `n` (a little-endian word value)
into the modelled `f32`. -/
def decodeF32bits (n : ℕ) : Rf32 :=
  let sign : Bool := decide (n / 2 ^ 31 % 2 = 1)
  let e : ℕ := n / 2 ^ 23 % 256
  let m : ℕ := n % 2 ^ 23
  if e = 255 then (if m = 0 then .inf sign else .nan)
  else
    let mag : ℚ :=
      if e = 0 then (m : ℚ) / 2 ^ 149
      else ((2 ^ 23 + m : ℕ) : ℚ) * (2 : ℚ) ^ ((e : ℤ) - 150)
    .fin (if sign then -mag else mag)

/-- A byte of the display-list buffer. -/
abbrev Byte := Fin 256

/-- Decode error family of `apply`; `MalformedStream` in the spec.
`badFont` models the `"Invalid font data"` error raised by the `Text` arm
when the embedded font fails to parse, and `outOfFuel` is an artefact of the
fuelled loop that is proved unreachable for the fuel used by `applyRun`. -/
inductive DErr where
  | unknownOpcode : DErr
  | eob : DErr
  | badUtf8 : DErr
  | badFont : DErr
  | outOfFuel : DErr
deriving DecidableEq

/-- The decoder monad: a byte cursor, modelled as the remaining suffix of
the buffer, with `MalformedStream`-style failure. -/
def DecM (α : Type) := List Byte → Except DErr (α × List Byte)

instance : Monad DecM where
  pure a := fun l => .ok (a, l)
  bind m f := fun l =>
    match m l with
    | .ok (a, l') => f a l'
    | .error e => .error e

/-- Lifts a pure fallible result into the decoder monad without consuming
input. -/
def liftRes (r : Except DErr α) : DecM α := fun l =>
  match r with
  | .ok a => .ok (a, l)
  | .error e => .error e

/-- The little-endian word value of four bytes. -/
def leWord (b0 b1 b2 b3 : Byte) : ℕ :=
  b0.val + 256 * b1.val + 65536 * b2.val + 16777216 * b3.val

/-- Decoder primitive `read_u8`. -/
def readU8 : DecM Byte := fun l =>
  match l with
  | b :: t => .ok (b, t)
  | [] => .error .eob

/-- Decoder primitive `read_u32` (little-endian). -/
def readU32 : DecM ℕ := fun l =>
  match l with
  | b0 :: b1 :: b2 :: b3 :: t => .ok (leWord b0 b1 b2 b3, t)
  | _ => .error .eob

/-- Decoder primitive `read_f32` (little-endian IEEE-754). -/
def readF32 : DecM Rf32 := fun l =>
  match l with
  | b0 :: b1 :: b2 :: b3 :: t => .ok (decodeF32bits (leWord b0 b1 b2 b3), t)
  | _ => .error .eob

/-- A decoded 2x3 affine, `read_mat3`'s `[a, b, c, d, e, f]`. -/
structure Mat3 where
  a : Rf32
  b : Rf32
  c : Rf32
  d : Rf32
  e : Rf32
  f : Rf32
deriving DecidableEq

/-- Decoder primitive `read_mat3`: six consecutive `f32`. -/
def readMat3 : DecM Mat3 := do
  let a ← readF32
  let b ← readF32
  let c ← readF32
  let d ← readF32
  let e ← readF32
  let f ← readF32
  pure ⟨a, b, c, d, e, f⟩

/-- Whether a byte is a UTF-8 continuation byte (0x80..0xBF). -/
def isCont (b : Byte) : Prop := 128 ≤ b.val ∧ b.val ≤ 191

instance (b : Byte) : Decidable (isCont b) := by unfold isCont; infer_instance

/-- Validity of the second byte of a three-byte UTF-8 sequence, ruling out
overlong encodings (lead 0xE0) and surrogates (lead 0xED). -/
def cont3Ok (b c1 : Byte) : Prop :=
  (b.val = 224 ∧ 160 ≤ c1.val ∧ c1.val ≤ 191) ∨
  (b.val = 237 ∧ 128 ≤ c1.val ∧ c1.val ≤ 159) ∨
  (b.val ≠ 224 ∧ b.val ≠ 237 ∧ isCont c1)

instance (b c1 : Byte) : Decidable (cont3Ok b c1) := by
  unfold cont3Ok; infer_instance

/-- Validity of the second byte of a four-byte UTF-8 sequence, ruling out
overlong encodings (lead 0xF0) and values beyond U+10FFFF (lead 0xF4). -/
def cont4Ok (b c1 : Byte) : Prop :=
  (b.val = 240 ∧ 144 ≤ c1.val ∧ c1.val ≤ 191) ∨
  (b.val = 244 ∧ 128 ≤ c1.val ∧ c1.val ≤ 143) ∨
  ((b.val = 241 ∨ b.val = 242 ∨ b.val = 243) ∧ isCont c1)

instance (b c1 : Byte) : Decidable (cont4Ok b c1) := by
  unfold cont4Ok; infer_instance

/-- Strict UTF-8 decoding of a byte list, the semantics of Rust's
`String::from_utf8`: rejects overlong forms, surrogates, values beyond
U+10FFFF and truncated sequences. -/
def utf8Decode : List Byte → Option (List Char)
  | [] => some []
  | b :: t =>
    if b.val < 128 then
      (utf8Decode t).map (fun s => Char.ofNat b.val :: s)
    else if b.val < 194 then none
    else if b.val < 224 then
      match t with
      | c1 :: t' =>
        if isCont c1 then
          (utf8Decode t').map
            (fun s => Char.ofNat ((b.val - 192) * 64 + (c1.val - 128)) :: s)
        else none
      | [] => none
    else if b.val < 240 then
      match t with
      | c1 :: c2 :: t' =>
        if cont3Ok b c1 ∧ isCont c2 then
          (utf8Decode t').map
            (fun s =>
              Char.ofNat
                ((b.val - 224) * 4096 + (c1.val - 128) * 64 + (c2.val - 128)) :: s)
        else none
      | _ => none
    else if b.val < 245 then
      match t with
      | c1 :: c2 :: c3 :: t' =>
        if cont4Ok b c1 ∧ isCont c2 ∧ isCont c3 then
          (utf8Decode t').map
            (fun s =>
              Char.ofNat
                ((b.val - 240) * 262144 + (c1.val - 128) * 4096 +
                  (c2.val - 128) * 64 + (c3.val - 128)) :: s)
        else none
      | _ => none
    else none

/-- Decoder primitive `read_string(len)`: checks the remaining length first
(`Unexpected end of buffer`), then validates UTF-8
(`Invalid UTF-8 in path data`). -/
def readString (len : ℕ) : DecM (List Char) := fun l =>
  if len ≤ l.length then
    match utf8Decode (l.take len) with
    | some s => .ok (s, l.drop len)
    | none => .error .badUtf8
  else .error .eob

/-- Unicode `White_Space` characters, the class used by Rust's
`char::is_whitespace` and hence by `str::split_whitespace`. -/
def rustIsWs (c : Char) : Prop :=
  c.val = 0x09 ∨ c.val = 0x0A ∨ c.val = 0x0B ∨ c.val = 0x0C ∨ c.val = 0x0D ∨
  c.val = 0x20 ∨ c.val = 0x85 ∨ c.val = 0xA0 ∨ c.val = 0x1680 ∨
  (0x2000 ≤ c.val ∧ c.val ≤ 0x200A) ∨ c.val = 0x2028 ∨ c.val = 0x2029 ∨
  c.val = 0x202F ∨ c.val = 0x205F ∨ c.val = 0x3000

instance (c : Char) : Decidable (rustIsWs c) := by unfold rustIsWs; infer_instance

/-- One step of whitespace splitting, consuming a character from the right:
whitespace flushes the current word. -/
def splitWsStep (c : Char) (s : List Char × List (List Char)) :
    List Char × List (List Char) :=
  if rustIsWs c then ([], if s.1 = [] then s.2 else s.1 :: s.2)
  else (c :: s.1, s.2)

/-- Rust `str::split_whitespace`: the maximal whitespace-free words of the
line, in order, with empty pieces dropped. -/
def splitWs (l : List Char) : List (List Char) :=
  let s := l.foldr splitWsStep ([], [])
  if s.1 = [] then s.2 else s.1 :: s.2

/-- One step of newline splitting, consuming a character from the right. -/
def splitNlStep (c : Char) (s : List Char × List (List Char)) :
    List Char × List (List Char) :=
  if c = '\n' then ([], s.1 :: s.2) else (c :: s.1, s.2)

/-- Rust `str::split('\n')`: the raw lines of the text, keeping empty
pieces, so a text with k newlines yields k+1 raw lines. -/
def splitLines (l : List Char) : List (List Char) :=
  let s := l.foldr splitNlStep ([], [])
  s.1 :: s.2

/-- The font data the text pipeline consults, a parameter of the model
standing for the skrifa metrics of the embedded font at the effective size:
raw horizontal metrics, the reported average advance, the character map and
the per-glyph advance query. Advance widths are modelled as exact
rationals. -/
structure FontModel where
  ascent : Rf32
  descent : Rf32
  leading : Rf32
  averageWidth : Option Rf32
  charMap : Char → Option ℕ
  advG : ℕ → Option ℚ

/-- The advance contributed by one character: TAB counts as four fallback
widths; otherwise the character maps to a glyph (missing map entries give
glyph 0, `.notdef`) whose advance is queried, with the fallback width
substituted on failure. -/
def charAdvance (M : FontModel) (fallback : ℚ) (c : Char) : ℚ :=
  if c = '\t' then fallback * 4
  else (M.advG ((M.charMap c).getD 0)).getD fallback

/-- The function `measure_text_width`: the sum of the advances of the
characters of `l`. -/
def measure_text_width (l : List Char) (M : FontModel) (fallback : ℚ) : ℚ :=
  (l.map (charAdvance M fallback)).sum

/-- A wrapped visual line: its text and the width accumulated for it
(`LineLayout` in the source). -/
structure LineLayout where
  text : List Char
  width : ℚ
deriving DecidableEq

/-- One step of the greedy word-wrapping loop: the state is the current
line, its width, and the lines already flushed. An empty current line takes
the word; otherwise the word is appended when
`current_width + space_width + word_width <= max_width`, else the current
line is flushed and the word starts a new line. -/
def wrapStep (M : FontModel) (fallback spaceW maxW : ℚ)
    (s : List Char × ℚ × List LineLayout) (word : List Char) :
    List Char × ℚ × List LineLayout :=
  let wordW := measure_text_width word M fallback
  if s.1 = [] then (word, wordW, s.2.2)
  else
    let next := s.2.1 + spaceW + wordW
    if next ≤ maxW then (s.1 ++ ' ' :: word, next, s.2.2)
    else (word, wordW, s.2.2 ++ [⟨s.1, s.2.1⟩])

/-- The wrapping branch of `wrap_text_lines` for one raw line when
`max_width` is finite and positive: split into whitespace words, then
greedily refill; a raw line with no words flushes a single empty line. -/
def wrapRawLine (M : FontModel) (fallback spaceW maxW : ℚ)
    (raw : List Char) : List LineLayout :=
  match splitWs raw with
  | [] => [⟨[], 0⟩]
  | w :: ws =>
    let s := (w :: ws).foldl (wrapStep M fallback spaceW maxW) ([], 0, [])
    s.2.2 ++ [⟨s.1, s.2.1⟩]

/-- The function `wrap_text_lines`: split the text at `'\n'`; when
`max_width` is non-finite or not positive each raw line is emitted unchanged
with its measured width, otherwise each raw line is greedily wrapped. -/
def wrap_text_lines (text : List Char) (maxWidth : Rf32) (M : FontModel)
    (fallback : ℚ) : List LineLayout :=
  let spaceW := measure_text_width [' '] M fallback
  match finPos maxWidth with
  | none =>
    (splitLines text).map (fun raw => ⟨raw, measure_text_width raw M fallback⟩)
  | some m => ((splitLines text).map (wrapRawLine M fallback spaceW m)).flatten

/-- The text alignment selector (`TextAlign`). -/
inductive TextAlign where
  | startAlign : TextAlign
  | centerAlign : TextAlign
  | endAlign : TextAlign
deriving DecidableEq

/-- The function `TextAlign::from_u8`: 1 is center, 2 is end, anything else
is start. -/
def TextAlign.from_u8 (b : Byte) : TextAlign :=
  if b.val = 1 then .centerAlign else if b.val = 2 then .endAlign else .startAlign

/-- The function `align_offset`: the horizontal origin offset of a line;
the reference width is `max_width` when finite and positive, else the line's
own width (so center and end collapse to start). -/
def align_offset (al : TextAlign) (maxWidth : Rf32) (lineWidth : ℚ) : ℚ :=
  let W := match finPos maxWidth with
    | some m => m
    | none => lineWidth
  match al with
  | .startAlign => 0
  | .centerAlign => (W - lineWidth) / 2
  | .endAlign => W - lineWidth

/-- An RGBA color as handed to the scene (`Color::new([r, g, b, a])`). -/
structure ColorV where
  r : Rf32
  g : Rf32
  b : Rf32
  a : Rf32
deriving DecidableEq

/-- The reset base color, `Color::new([0.0, 0.0, 0.0, 1.0])`. -/
def blackColor : ColorV := ⟨.fin 0, .fin 0, .fin 0, .fin 1⟩

/-- The GPU-facing state touched by `resize`: the surface configuration's
pixel size, the cached offscreen target with its dimensions, the present
bind group cache, and a count of `surface.configure` calls. -/
structure GpuState where
  width : ℕ
  height : ℕ
  offscreen : Option (ℕ × ℕ)
  bindGroup : Bool
  configures : ℕ
deriving DecidableEq

/-- The function `RendererHandle::resize`: zero dimensions and the current
size are no-ops; otherwise the configuration is updated, the surface is
reconfigured, and the offscreen target and present bind group are
invalidated. -/
def resize (w h : ℕ) (st : GpuState) : GpuState :=
  if w = 0 ∨ h = 0 then st
  else if st.width = w ∧ st.height = h then st
  else
    { width := w, height := h, offscreen := none, bindGroup := false,
      configures := st.configures + 1 }

/-- A positioned glyph (`vello::Glyph`). -/
structure GlyphPos where
  id : ℕ
  x : Rf32
  y : Rf32
deriving DecidableEq

/-- A fill rule (`vello::peniko::Fill`). -/
inductive FillSty where
  | nonZero : FillSty
  | evenOdd : FillSty
deriving DecidableEq

/-- The rounded rectangle handed to `scene.fill` by the `Rect` arm:
`RoundedRect::new(ox, oy, ox + width, oy + height, radius)`. -/
structure RectGeom where
  x0 : Rf32
  y0 : Rf32
  x1 : Rf32
  y1 : Rf32
  radius : Rf32
deriving DecidableEq

/-- A drawing command recorded on the scene. -/
inductive Cmd where
  | fillRect (tf : Mat3) (color : ColorV) (geom : RectGeom) : Cmd
  | fillPath (style : FillSty) (tf : Mat3) (color : ColorV) (path : List Char) : Cmd
  | strokePath (w : Rf32) (tf : Mat3) (color : ColorV) (path : List Char) : Cmd
  | drawGlyphs (fontSize : ℚ) (tf : Mat3) (color : ColorV)
      (glyphs : List GlyphPos) : Cmd
deriving DecidableEq

/-- The brush color of a command. -/
def Cmd.color : Cmd → ColorV
  | .fillRect _ c _ => c
  | .fillPath _ _ c _ => c
  | .strokePath _ _ c _ => c
  | .drawGlyphs _ _ c _ => c

/-- The state mutated by `apply`: the retained scene, the base color, and
the GPU state reachable through `resize`. -/
structure AState where
  scene : List Cmd
  baseColor : ColorV
  gpu : GpuState
deriving DecidableEq

/-- Appends one command to the scene. -/
def pushCmd (st : AState) (c : Cmd) : AState :=
  { st with scene := st.scene ++ [c] }

/-- Appends commands to the scene in order. -/
def pushCmds (st : AState) (cs : List Cmd) : AState :=
  { st with scene := st.scene ++ cs }

/-- The external collaborators of `apply`: the kurbo SVG path oracle
(`BezPath::from_svg(..).is_ok()`), whether the embedded font parses
(`FontRef::from_index`), and the skrifa metrics at a given effective font
size. -/
structure Env where
  parse_ok : List Char → Bool
  fontOk : Bool
  metricsAt : ℚ → FontModel

/-- The payload of a `BeginFrame` record, in declared field order. -/
structure BeginFields where
  lw : Rf32
  lh : Rf32
  dpr : Rf32
  r : Rf32
  g : Rf32
  b : Rf32
  a : Rf32
deriving DecidableEq

/-- Reads a `BeginFrame` payload. -/
def readBeginFields : DecM BeginFields := do
  let lw ← readF32
  let lh ← readF32
  let dpr ← readF32
  let r ← readF32
  let g ← readF32
  let b ← readF32
  let a ← readF32
  pure ⟨lw, lh, dpr, r, g, b, a⟩

/-- The pixel dimension computed by the `BeginFrame` arm from the product
`logical * dpr`: `(p).round().clamp(1.0, f32::MAX) as u32`. -/
def computedDim (p : Rf32) : ℕ :=
  castU32 (rustClamp p.round (.fin 1) (.fin f32MaxQ))

/-- The `BeginFrame` arm: resize to the computed pixel dimensions, then set
the base color to the raw `(r, g, b, a)` (not multiplied by any opacity). -/
def beginApply (f : BeginFields) (st : AState) : AState :=
  let w := computedDim (f.lw.mul f.dpr)
  let h := computedDim (f.lh.mul f.dpr)
  { st with gpu := resize w h st.gpu, baseColor := ⟨f.r, f.g, f.b, f.a⟩ }

/-- The payload of a `Rect` record, in declared field order. -/
structure RectFields where
  opacity : Rf32
  tf : Mat3
  ox : Rf32
  oy : Rf32
  w : Rf32
  h : Rf32
  radius : Rf32
  r : Rf32
  g : Rf32
  b : Rf32
  a : Rf32
deriving DecidableEq

/-- Reads a `Rect` payload. -/
def readRectFields : DecM RectFields := do
  let opacity ← readF32
  let tf ← readMat3
  let ox ← readF32
  let oy ← readF32
  let w ← readF32
  let h ← readF32
  let radius ← readF32
  let r ← readF32
  let g ← readF32
  let b ← readF32
  let a ← readF32
  pure ⟨opacity, tf, ox, oy, w, h, radius, r, g, b, a⟩

/-- The color built by a primitive arm:
`Color::new([r, g, b, (a * opacity).clamp(0.0, 1.0)])`. -/
def primColor (opacity r g b a : Rf32) : ColorV :=
  ⟨r, g, b, clamp01 (a.mul opacity)⟩

/-- The command emitted by the `Rect` arm: a non-zero fill of the rounded
rectangle. -/
def rectCmd (f : RectFields) : Cmd :=
  .fillRect f.tf (primColor f.opacity f.r f.g f.b f.a)
    ⟨f.ox, f.oy, f.ox.add f.w, f.oy.add f.h, f.radius⟩

/-- The `Rect` arm. -/
def rectApply (f : RectFields) (st : AState) : AState :=
  pushCmd st (rectCmd f)

/-- The payload of a `Path` record. The optional fill and stroke colors are
already alpha-multiplied, as in the source, where they are computed while
reading. -/
structure PathFields where
  opacity : Rf32
  tf : Mat3
  fill_rule : Byte
  fill : Option (Rf32 × Rf32 × Rf32 × Rf32)
  stroke : Option (Rf32 × Rf32 × Rf32 × Rf32 × Rf32)
  path : List Char
deriving DecidableEq

/-- Reads a `Path` payload, with the fill and stroke groups present exactly
when their flag byte is non-zero. -/
def readPathFields : DecM PathFields := do
  let opacity ← readF32
  let tf ← readMat3
  let fr ← readU8
  let hf ← readU8
  let fill ←
    if hf.val ≠ 0 then do
      let r ← readF32
      let g ← readF32
      let b ← readF32
      let a ← readF32
      pure (some (r, g, b, a))
    else pure none
  let hs ← readU8
  let stroke ←
    if hs.val ≠ 0 then do
      let w ← readF32
      let r ← readF32
      let g ← readF32
      let b ← readF32
      let a ← readF32
      pure (some (w, r, g, b, a))
    else pure none
  let plen ← readU32
  let p ← readString plen
  pure ⟨opacity, tf, fr, fill, stroke, p⟩

/-- The fill style of a `Path` record: even-odd exactly when
`fill_rule == 1`. -/
def fillStyleOf (f : PathFields) : FillSty :=
  if f.fill_rule.val = 1 then .evenOdd else .nonZero

/-- The commands a parsed `Path` record emits: the fill (when present)
followed by the stroke (when present). -/
def pathCmds (f : PathFields) : List Cmd :=
  (match f.fill with
    | some (r, g, b, a) =>
      [.fillPath (fillStyleOf f) f.tf (primColor f.opacity r g b a) f.path]
    | none => []) ++
  (match f.stroke with
    | some (w, r, g, b, a) =>
      [.strokePath w f.tf (primColor f.opacity r g b a) f.path]
    | none => [])

/-- The `Path` arm: when the SVG path string parses, emit fill then stroke;
otherwise drop the whole record silently. -/
def pathApply (env : Env) (f : PathFields) (st : AState) : AState :=
  if env.parse_ok f.path then pushCmds st (pathCmds f) else st

/-- The payload of a `Text` record, in declared field order. -/
structure TextFields where
  opacity : Rf32
  tf : Mat3
  ox : Rf32
  oy : Rf32
  font_size : Rf32
  line_height : Rf32
  max_width : Rf32
  align : Byte
  r : Rf32
  g : Rf32
  b : Rf32
  a : Rf32
  text : List Char
deriving DecidableEq

/-- Reads a `Text` payload. -/
def readTextFields : DecM TextFields := do
  let opacity ← readF32
  let tf ← readMat3
  let ox ← readF32
  let oy ← readF32
  let font_size ← readF32
  let line_height ← readF32
  let max_width ← readF32
  let al ← readU8
  let r ← readF32
  let g ← readF32
  let b ← readF32
  let a ← readF32
  let tlen ← readU32
  let txt ← readString tlen
  pure ⟨opacity, tf, ox, oy, font_size, line_height, max_width, al, r, g, b, a, txt⟩

/-- Lays out the glyphs of one visual line from a starting pen position:
TAB advances by four fallback widths without emitting a glyph; other
characters emit their glyph (missing map entries give `.notdef`, glyph 0)
and advance by its advance width or the fallback. -/
def glyphsOfLine (M : FontModel) (fallback : ℚ) (y : Rf32) :
    Rf32 → List Char → List GlyphPos
  | _, [] => []
  | x, c :: cs =>
    if c = '\t' then glyphsOfLine M fallback y (x.add (.fin (fallback * 4))) cs
    else
      ⟨(M.charMap c).getD 0, x, y⟩ ::
        glyphsOfLine M fallback y
          (x.add (.fin ((M.advG ((M.charMap c).getD 0)).getD fallback))) cs

/-- Lays out all visual lines: line i starts at
`ox + align_offset(align, max_width, width_i)` with the baseline advancing
by the effective line height after each line. -/
def glyphsOfLines (M : FontModel) (fallback : ℚ) (maxW : Rf32)
    (al : TextAlign) (ox : Rf32) (lineH : ℚ) :
    Rf32 → List LineLayout → List GlyphPos
  | _, [] => []
  | y, L :: Ls =>
    glyphsOfLine M fallback y (ox.add (.fin (align_offset al maxW L.width))) L.text ++
      glyphsOfLines M fallback maxW al ox lineH (y.add (.fin lineH)) Ls

/-- The body of the `Text` arm after the payload is read and the font has
parsed: effective metrics, wrapping, glyph layout, and a single
`draw_glyphs` command when any glyph was produced. -/
def effFontSize (f : TextFields) : ℚ := (finPos f.font_size).getD 16

/-- The metrics instance resolved at the effective font size. -/
def textMetrics (env : Env) (f : TextFields) : FontModel :=
  env.metricsAt (effFontSize f)

/-- The effective ascent: the font's ascent when finite, else
`0.8 * font_size`. -/
def textAscent (env : Env) (f : TextFields) : ℚ :=
  if (textMetrics env f).ascent.isFinite then (textMetrics env f).ascent.toQ
  else effFontSize f * (4 / 5)

/-- The effective descent: the font's descent when finite, else
`-0.2 * font_size`. -/
def textDescent (env : Env) (f : TextFields) : ℚ :=
  if (textMetrics env f).descent.isFinite then (textMetrics env f).descent.toQ
  else -(effFontSize f * (1 / 5))

/-- The effective leading: the font's leading when finite, else 0. -/
def textLeading (env : Env) (f : TextFields) : ℚ :=
  if (textMetrics env f).leading.isFinite then (textMetrics env f).leading.toQ
  else 0

/-- The fallback advance width: the font's average width when finite and
positive, else half the font size. -/
def textFallback (env : Env) (f : TextFields) : ℚ :=
  ((textMetrics env f).averageWidth.bind finPos).getD (effFontSize f / 2)

/-- The effective line height: the record's `line_height` when finite and
positive, else `ascent - descent + leading` when positive, else
`1.2 * font_size`. -/
def textLineHeight (env : Env) (f : TextFields) : ℚ :=
  match finPos f.line_height with
  | some v => v
  | none =>
    let base := textAscent env f - textDescent env f + textLeading env f
    if 0 < base then base else effFontSize f * (6 / 5)

/-- The wrapped visual lines of the record's text. -/
def textLayout (env : Env) (f : TextFields) : List LineLayout :=
  wrap_text_lines f.text f.max_width (textMetrics env f) (textFallback env f)

/-- The glyphs laid out for the record, baseline of line 0 at
`oy + ascent`. -/
def textGlyphs (env : Env) (f : TextFields) : List GlyphPos :=
  glyphsOfLines (textMetrics env f) (textFallback env f) f.max_width
    (TextAlign.from_u8 f.align) f.ox (textLineHeight env f)
    (f.oy.add (.fin (textAscent env f))) (textLayout env f)

/-- The body of the `Text` arm after the payload is read and the font has
parsed: wrap the text, lay out the glyphs, and record a single
`draw_glyphs` command when any glyph was produced. -/
def textRun (env : Env) (f : TextFields) (st : AState) : AState :=
  if textLayout env f = [] then st
  else if textGlyphs env f = [] then st
  else
    pushCmd st
      (.drawGlyphs (effFontSize f) f.tf (primColor f.opacity f.r f.g f.b f.a)
        (textGlyphs env f))

/-- The `Text` arm: empty text is a no-op; a font that fails to parse is the
`"Invalid font data"` error; otherwise the text is laid out. -/
def textApply (env : Env) (f : TextFields) (st : AState) : Except DErr AState :=
  if f.text = [] then .ok st
  else if env.fontOk then .ok (textRun env f st)
  else .error .badFont

/-- The opcode set of the display list. -/
inductive OpCode where
  | beginFrame : OpCode
  | rect : OpCode
  | path : OpCode
  | text : OpCode
  | endFrame : OpCode
deriving DecidableEq

/-- The function `OpCode::from_byte`: 1, 2, 3, 4 and 255 are the only
recognized opcode bytes. -/
def OpCode.from_byte (b : Byte) : Option OpCode :=
  if b.val = 1 then some .beginFrame
  else if b.val = 2 then some .rect
  else if b.val = 3 then some .path
  else if b.val = 4 then some .text
  else if b.val = 255 then some .endFrame
  else none

/-- The decode-and-apply action of one non-terminator opcode: read the
payload, then update the state. -/
def stepOf (env : Env) : OpCode → AState → DecM AState
  | .beginFrame => fun st => do
    let f ← readBeginFields
    pure (beginApply f st)
  | .rect => fun st => do
    let f ← readRectFields
    pure (rectApply f st)
  | .path => fun st => do
    let f ← readPathFields
    pure (pathApply env f st)
  | .text => fun st => do
    let f ← readTextFields
    liftRes (textApply env f st)
  | .endFrame => fun st => pure st

/-- The decode loop of `apply` (fuelled; the fuel is an upper bound on the
number of iterations and `applyRun` always supplies enough). The result is
the final state, the unconsumed suffix of the buffer, and whether the loop
was terminated by an `EndFrame` opcode rather than by the end of the
buffer. -/
def applyGo (env : Env) : ℕ → List Byte → AState → Except DErr (AState × List Byte × Bool)
  | 0, _, _ => .error .outOfFuel
  | _ + 1, [], st => .ok (st, [], false)
  | fuel + 1, b :: t, st =>
    match OpCode.from_byte b with
    | none => .error .unknownOpcode
    | some .endFrame => .ok (st, t, true)
    | some op =>
      match stepOf env op st t with
      | .error e => .error e
      | .ok (st', rem) => applyGo env fuel rem st'

/-- The state `apply` starts from: scene reset, base color reset to opaque
black, the GPU state carried over. -/
def initState (g : GpuState) : AState := ⟨[], blackColor, g⟩

/-- The function `RendererHandle::apply` on a byte buffer, exposing the
unconsumed suffix and the termination mode. -/
def applyRun (env : Env) (bytes : List Byte) (g : GpuState) :
    Except DErr (AState × List Byte × Bool) :=
  applyGo env (bytes.length + 1) bytes (initState g)

/-- The observable result of `RendererHandle::apply`. -/
def applyBytes (env : Env) (bytes : List Byte) (g : GpuState) :
    Except DErr AState :=
  (applyRun env bytes g).map (fun r => r.1)

/-- A swap-chain acquisition outcome (`wgpu::SurfaceError`, with `ok` for a
successful acquire). -/
inductive AcqResult where
  | ok : AcqResult
  | lost : AcqResult
  | outdated : AcqResult
  | oom : AcqResult
  | timeout : AcqResult
  | other : AcqResult
deriving DecidableEq

/-- How a `render` call ends as far as frame acquisition is concerned. -/
inductive RenderOutcome where
  | drawn : RenderOutcome
  | skipped : RenderOutcome
  | errOutOfMemory : RenderOutcome
  | errOther : RenderOutcome
  | errAcquire : RenderOutcome
deriving DecidableEq

/-- The swap-chain acquisition logic at the top of `RendererHandle::render`:
given the outcome of the first `get_current_texture` call and (when it is
consulted) of the retry, the render outcome and the number of
`surface.configure` calls performed. `Lost` and `Outdated` reconfigure and
retry once, any retry failure is an acquisition error; `Timeout` skips the
frame successfully; `OutOfMemory` and other errors fail without retrying. -/
def renderAcquire (first second : AcqResult) : RenderOutcome × ℕ :=
  match first with
  | .ok => (.drawn, 0)
  | .lost => (if second = .ok then .drawn else .errAcquire, 1)
  | .outdated => (if second = .ok then .drawn else .errAcquire, 1)
  | .oom => (.errOutOfMemory, 0)
  | .timeout => (.skipped, 0)
  | .other => (.errOther, 0)

/-- A decoder computation consumes a determined sequence of bytes: a
successful run on `l` splits `l` into the consumed part and the remainder,
and the run is oblivious to anything after the consumed part. -/
def Consumes {α : Type} (m : DecM α) : Prop :=
  ∀ l a rem, m l = .ok (a, rem) →
    ∃ pre, l = pre ++ rem ∧ ∀ rest, m (pre ++ rest) = .ok (a, rest)

/-- The errors a payload step may raise: a truncated read, invalid UTF-8,
or the font-parse failure (only possible when the embedded font does not
parse). -/
def StepErrs (env : Env) {α : Type} (m : DecM α) : Prop :=
  ∀ l e, m l = .error e →
    e = .eob ∨ e = .badUtf8 ∨ (e = .badFont ∧ env.fontOk = false)

/-- A command's alpha is of the clamped-product form; equivalently it lies
in `[0, 1]` unless some input channel was NaN. -/
def AlphaClamped (c : Cmd) : Prop :=
  ∃ a op : Rf32, c.color.a = clamp01 (a.mul op)

/-- The dimension the claim's own formula `max(1, round(p))` yields, read
with Rust `f32::max` semantics, then cast to `u32`. -/
def specDimClaim (p : Rf32) : ℕ := castU32 (rustMaxF (.fin 1) p.round)

/-- The pixel dimension the `BeginFrame` arm actually produces from a
non-NaN product: at least 1, at most `u32::MAX`, otherwise the rounded
product. -/
def specDimTotal : Rf32 → ℕ
  | .nan => 0
  | .inf true => 1
  | .inf false => u32Max
  | .fin q => max 1 (min u32Max (Int.toNat (roundAwayQ q)))

/-- Joins words with single spaces, the shape of every wrapped line. -/
def joinWords : List (List Char) → List Char
  | [] => []
  | [w] => w
  | w :: ws => w ++ ' ' :: joinWords ws

/-- A concrete font model used by witnesses: every character maps to glyph
1 with advance 5, the reported average width is 5. -/
def fontStd : FontModel :=
  { ascent := .fin 8, descent := .fin (-2), leading := .fin 0,
    averageWidth := some (.fin 5), charMap := fun _ => some 1,
    advG := fun _ => some 5 }

/-- A concrete environment used by witnesses: every path parses and the
font is valid. -/
def envStd : Env :=
  { parse_ok := fun _ => true, fontOk := true, metricsAt := fun _ => fontStd }

/-- A concrete environment used by witnesses: no path parses. -/
def envNoParse : Env :=
  { parse_ok := fun _ => false, fontOk := true, metricsAt := fun _ => fontStd }

/-- A concrete GPU state of size 7x9 used by witnesses. -/
def gpu7 : GpuState := ⟨7, 9, some (7, 9), true, 0⟩

/-- A concrete GPU state of size 8x9 used by witnesses. -/
def gpu8 : GpuState := ⟨8, 9, some (8, 9), true, 0⟩

/-- A byte from a natural number (reduced modulo 256). -/
def byteN (n : ℕ) : Byte := ⟨n % 256, Nat.mod_lt _ (by norm_num)⟩

/-- The four little-endian bytes of the 32-bit word `n`. -/
def f32le (n : ℕ) : List Byte :=
  [byteN n, byteN (n / 256), byteN (n / 65536), byteN (n / 16777216)]

/-- A `BeginFrame` record whose `logical_width` is NaN and whose
`logical_height` and `dpr` are 1.0, with clear color `(0, 0, 0, 1)`,
followed by `EndFrame`. -/
def nanBuf : List Byte :=
  (byteN 1 ::
    (f32le 0x7FC00000 ++ f32le 0x3F800000 ++ f32le 0x3F800000 ++
      f32le 0 ++ f32le 0 ++ f32le 0 ++ f32le 0x3F800000)) ++ [byteN 255]

theorem DecM.bind_def {α β : Type} (m : DecM α) (f : α → DecM β) (l : List Byte) :
    (m >>= f) l =
      match m l with
      | .ok (a, l') => f a l'
      | .error e => .error e := rfl

theorem DecM.pure_def {α : Type} (a : α) (l : List Byte) :
    (pure a : DecM α) l = .ok (a, l) := rfl

theorem DecM.bind_ok {α β : Type} {m : DecM α} {f : α → DecM β} {l : List Byte}
    {b : β} {rem : List Byte} (h : (m >>= f) l = .ok (b, rem)) :
    ∃ a l₁, m l = .ok (a, l₁) ∧ f a l₁ = .ok (b, rem) := by
  rw [DecM.bind_def] at h
  cases hml : m l with
  | error e => rw [hml] at h; exact absurd h (by simp)
  | ok p =>
    obtain ⟨a, l₁⟩ := p
    rw [hml] at h
    exact ⟨a, l₁, rfl, h⟩

theorem DecM.bind_err {α β : Type} {m : DecM α} {f : α → DecM β} {l : List Byte}
    {e : DErr} (h : (m >>= f) l = .error e) :
    m l = .error e ∨ ∃ a l₁, m l = .ok (a, l₁) ∧ f a l₁ = .error e := by
  rw [DecM.bind_def] at h
  cases hml : m l with
  | error e' =>
    rw [hml] at h
    injection h with he
    exact Or.inl (by rw [he])
  | ok p =>
    obtain ⟨a, l₁⟩ := p
    rw [hml] at h
    exact Or.inr ⟨a, l₁, rfl, h⟩

theorem consumes_pure {α : Type} (a : α) : Consumes (pure a : DecM α) := by
  intro l b rem h
  simp only [DecM.pure_def, Except.ok.injEq, Prod.mk.injEq] at h
  obtain ⟨rfl, rfl⟩ := h
  exact ⟨[], rfl, fun rest => rfl⟩

theorem consumes_bind {α β : Type} {m : DecM α} {f : α → DecM β}
    (hm : Consumes m) (hf : ∀ a, Consumes (f a)) : Consumes (m >>= f) := by
  intro l b rem h
  obtain ⟨a, l₁, hml, hf₁⟩ := DecM.bind_ok h
  obtain ⟨pre₁, rfl, hre₁⟩ := hm l a l₁ hml
  obtain ⟨pre₂, rfl, hre₂⟩ := hf a l₁ b rem hf₁
  refine ⟨pre₁ ++ pre₂, by rw [List.append_assoc], fun rest => ?_⟩
  rw [DecM.bind_def, List.append_assoc, hre₁ (pre₂ ++ rest)]
  exact hre₂ rest

theorem consumes_ite {α : Type} {c : Prop} [Decidable c] {m₁ m₂ : DecM α}
    (h₁ : Consumes m₁) (h₂ : Consumes m₂) : Consumes (if c then m₁ else m₂) := by
  by_cases h : c
  · simpa [h] using h₁
  · simpa [h] using h₂

theorem consumes_liftRes {α : Type} (r : Except DErr α) : Consumes (liftRes r) := by
  intro l a rem h
  cases r with
  | ok x =>
    simp only [liftRes, Except.ok.injEq, Prod.mk.injEq] at h
    obtain ⟨rfl, rfl⟩ := h
    exact ⟨[], rfl, fun rest => rfl⟩
  | error e => simp [liftRes] at h

theorem consumes_readU8 : Consumes readU8 := by
  intro l a rem h
  cases l with
  | nil => simp [readU8] at h
  | cons b t =>
    simp only [readU8, Except.ok.injEq, Prod.mk.injEq] at h
    obtain ⟨rfl, rfl⟩ := h
    exact ⟨[b], rfl, fun rest => rfl⟩

theorem consumes_readU32 : Consumes readU32 := by
  intro l a rem h
  rcases l with _ | ⟨b0, _ | ⟨b1, _ | ⟨b2, _ | ⟨b3, t⟩⟩⟩⟩
  · simp [readU32] at h
  · simp [readU32] at h
  · simp [readU32] at h
  · simp [readU32] at h
  · simp only [readU32, Except.ok.injEq, Prod.mk.injEq] at h
    obtain ⟨rfl, rfl⟩ := h
    exact ⟨[b0, b1, b2, b3], rfl, fun rest => rfl⟩

theorem consumes_readF32 : Consumes readF32 := by
  intro l a rem h
  rcases l with _ | ⟨b0, _ | ⟨b1, _ | ⟨b2, _ | ⟨b3, t⟩⟩⟩⟩
  · simp [readF32] at h
  · simp [readF32] at h
  · simp [readF32] at h
  · simp [readF32] at h
  · simp only [readF32, Except.ok.injEq, Prod.mk.injEq] at h
    obtain ⟨rfl, rfl⟩ := h
    exact ⟨[b0, b1, b2, b3], rfl, fun rest => rfl⟩

theorem consumes_readString (len : ℕ) : Consumes (readString len) := by
  intro l a rem h
  unfold readString at h
  split at h
  case isTrue hle =>
    cases hu : utf8Decode (l.take len) with
    | none => rw [hu] at h; exact absurd h (by simp)
    | some s =>
      rw [hu] at h
      simp only [Except.ok.injEq, Prod.mk.injEq] at h
      obtain ⟨rfl, rfl⟩ := h
      have hlen : (l.take len).length = len := by
        rw [List.length_take]; omega
      refine ⟨l.take len, (List.take_append_drop len l).symm, fun rest => ?_⟩
      have h3 : len ≤ (l.take len ++ rest).length := by
        rw [List.length_append, hlen]; omega
      unfold readString
      rw [if_pos h3, List.take_left' hlen, hu, List.drop_left' hlen]
  case isFalse => exact absurd h (by simp)

theorem consumes_readMat3 : Consumes readMat3 := by
  unfold readMat3
  repeat' (first
    | exact consumes_readF32
    | exact consumes_pure _
    | refine consumes_bind ?_ (fun x => ?_))

theorem consumes_readBeginFields : Consumes readBeginFields := by
  unfold readBeginFields
  repeat' (first
    | exact consumes_readF32
    | exact consumes_pure _
    | refine consumes_bind ?_ (fun x => ?_))

theorem consumes_readRectFields : Consumes readRectFields := by
  unfold readRectFields
  repeat' (first
    | exact consumes_readF32
    | exact consumes_readMat3
    | exact consumes_pure _
    | refine consumes_bind ?_ (fun x => ?_))

theorem consumes_readPathFields : Consumes readPathFields := by
  unfold readPathFields
  repeat' (first
    | exact consumes_readF32
    | exact consumes_readMat3
    | exact consumes_readU8
    | exact consumes_readU32
    | exact consumes_readString _
    | exact consumes_pure _
    | refine consumes_ite ?_ ?_
    | refine consumes_bind ?_ (fun x => ?_))

theorem consumes_readTextFields : Consumes readTextFields := by
  unfold readTextFields
  repeat' (first
    | exact consumes_readF32
    | exact consumes_readMat3
    | exact consumes_readU8
    | exact consumes_readU32
    | exact consumes_readString _
    | exact consumes_pure _
    | refine consumes_bind ?_ (fun x => ?_))

theorem consumes_stepOf (env : Env) (op : OpCode) (st : AState) :
    Consumes (stepOf env op st) := by
  cases op <;> unfold stepOf <;>
    repeat' (first
      | exact consumes_readBeginFields
      | exact consumes_readRectFields
      | exact consumes_readPathFields
      | exact consumes_readTextFields
      | exact consumes_pure _
      | exact consumes_liftRes _
      | refine consumes_bind ?_ (fun x => ?_))

theorem consumes_len {α : Type} {m : DecM α} (hm : Consumes m) {l : List Byte}
    {a : α} {rem : List Byte} (h : m l = .ok (a, rem)) : rem.length ≤ l.length := by
  obtain ⟨pre, rfl, -⟩ := hm l a rem h
  rw [List.length_append]
  omega

theorem errs_pure (env : Env) {α : Type} (a : α) : StepErrs env (pure a : DecM α) := by
  intro l e h
  simp [DecM.pure_def] at h

theorem errs_bind (env : Env) {α β : Type} {m : DecM α} {f : α → DecM β}
    (hm : StepErrs env m) (hf : ∀ a, StepErrs env (f a)) : StepErrs env (m >>= f) := by
  intro l e h
  rcases DecM.bind_err h with h' | ⟨a, l₁, -, herr⟩
  · exact hm l e h'
  · exact hf a l₁ e herr

theorem errs_ite (env : Env) {α : Type} {c : Prop} [Decidable c] {m₁ m₂ : DecM α}
    (h₁ : StepErrs env m₁) (h₂ : StepErrs env m₂) :
    StepErrs env (if c then m₁ else m₂) := by
  by_cases h : c
  · simpa [h] using h₁
  · simpa [h] using h₂

theorem errs_readU8 (env : Env) : StepErrs env readU8 := by
  intro l e h
  cases l with
  | nil =>
    injection h with he
    exact Or.inl he.symm
  | cons b t => simp [readU8] at h

theorem errs_readU32 (env : Env) : StepErrs env readU32 := by
  intro l e h
  rcases l with _ | ⟨b0, _ | ⟨b1, _ | ⟨b2, _ | ⟨b3, t⟩⟩⟩⟩
  · injection h with he; exact Or.inl he.symm
  · injection h with he; exact Or.inl he.symm
  · injection h with he; exact Or.inl he.symm
  · injection h with he; exact Or.inl he.symm
  · simp [readU32] at h

theorem errs_readF32 (env : Env) : StepErrs env readF32 := by
  intro l e h
  rcases l with _ | ⟨b0, _ | ⟨b1, _ | ⟨b2, _ | ⟨b3, t⟩⟩⟩⟩
  · injection h with he; exact Or.inl he.symm
  · injection h with he; exact Or.inl he.symm
  · injection h with he; exact Or.inl he.symm
  · injection h with he; exact Or.inl he.symm
  · simp [readF32] at h

theorem errs_readString (env : Env) (len : ℕ) : StepErrs env (readString len) := by
  intro l e h
  unfold readString at h
  split at h
  case isTrue hle =>
    cases hu : utf8Decode (l.take len) with
    | none =>
      rw [hu] at h
      injection h with he
      exact Or.inr (Or.inl he.symm)
    | some s => rw [hu] at h; exact absurd h (by simp)
  case isFalse =>
    injection h with he
    exact Or.inl he.symm

theorem errs_readMat3 (env : Env) : StepErrs env readMat3 := by
  unfold readMat3
  repeat' (first
    | exact errs_readF32 env
    | exact errs_pure env _
    | refine errs_bind env ?_ (fun x => ?_))

theorem errs_textApply (env : Env) (f : TextFields) (st : AState) :
    StepErrs env (liftRes (textApply env f st)) := by
  intro l e h
  unfold liftRes at h
  cases ht : textApply env f st with
  | ok st' => rw [ht] at h; exact absurd h (by simp)
  | error e' =>
    rw [ht] at h
    injection h with he
    subst he
    unfold textApply at ht
    split_ifs at ht with h₁ h₂
    injection ht with he'
    refine Or.inr (Or.inr ⟨he'.symm, ?_⟩)
    simpa using h₂

theorem errs_readBeginFields (env : Env) : StepErrs env readBeginFields := by
  unfold readBeginFields
  repeat' (first
    | exact errs_readF32 env
    | exact errs_pure env _
    | refine errs_bind env ?_ (fun x => ?_))

theorem errs_readRectFields (env : Env) : StepErrs env readRectFields := by
  unfold readRectFields
  repeat' (first
    | exact errs_readF32 env
    | exact errs_readMat3 env
    | exact errs_pure env _
    | refine errs_bind env ?_ (fun x => ?_))

theorem errs_readPathFields (env : Env) : StepErrs env readPathFields := by
  unfold readPathFields
  repeat' (first
    | exact errs_readF32 env
    | exact errs_readMat3 env
    | exact errs_readU8 env
    | exact errs_readU32 env
    | exact errs_readString env _
    | exact errs_pure env _
    | refine errs_ite env ?_ ?_
    | refine errs_bind env ?_ (fun x => ?_))

theorem errs_readTextFields (env : Env) : StepErrs env readTextFields := by
  unfold readTextFields
  repeat' (first
    | exact errs_readF32 env
    | exact errs_readMat3 env
    | exact errs_readU8 env
    | exact errs_readU32 env
    | exact errs_readString env _
    | exact errs_pure env _
    | refine errs_bind env ?_ (fun x => ?_))

theorem errs_stepOf (env : Env) (op : OpCode) (st : AState) :
    StepErrs env (stepOf env op st) := by
  cases op <;> unfold stepOf <;>
    repeat' (first
      | exact errs_readBeginFields env
      | exact errs_readRectFields env
      | exact errs_readPathFields env
      | exact errs_readTextFields env
      | exact errs_textApply env _ _
      | exact errs_pure env _
      | refine errs_bind env ?_ (fun x => ?_))

theorem from_byte_endFrame {b : Byte} (h : OpCode.from_byte b = some .endFrame) :
    b = byteN 255 := by
  unfold OpCode.from_byte at h
  split_ifs at h with h1 h2 h3 h4 h5
  · exact absurd h (by simp)
  · exact absurd h (by simp)
  · exact absurd h (by simp)
  · exact absurd h (by simp)
  · exact Fin.ext (by rw [h5]; decide)

theorem applyGo_zero_eq (env : Env) (l : List Byte) (st : AState) :
    applyGo env 0 l st = .error .outOfFuel := by
  simp [applyGo]

theorem applyGo_nil_eq (env : Env) (n : ℕ) (st : AState) :
    applyGo env (n + 1) [] st = .ok (st, [], false) := by
  simp [applyGo]

theorem applyGo_none_eq (env : Env) (n : ℕ) {b : Byte} (t : List Byte) (st : AState)
    (hop : OpCode.from_byte b = none) :
    applyGo env (n + 1) (b :: t) st = .error .unknownOpcode := by
  simp [applyGo, hop]

theorem applyGo_end_eq (env : Env) (n : ℕ) {b : Byte} (t : List Byte) (st : AState)
    (hop : OpCode.from_byte b = some .endFrame) :
    applyGo env (n + 1) (b :: t) st = .ok (st, t, true) := by
  simp [applyGo, hop]

theorem applyGo_step_eq (env : Env) (n : ℕ) {b : Byte} (t : List Byte) (st : AState)
    {op : OpCode} (hop : OpCode.from_byte b = some op) (hne : op ≠ .endFrame) :
    applyGo env (n + 1) (b :: t) st =
      match stepOf env op st t with
      | .error e => .error e
      | .ok (st₁, rem₁) => applyGo env n rem₁ st₁ := by
  cases op <;> simp [applyGo, hop] <;> exact absurd rfl hne

theorem applyGo_consumes (env : Env) :
    ∀ fuel l st st' rem ended, applyGo env fuel l st = .ok (st', rem, ended) →
    ∃ pre, l = pre ++ rem ∧
      (ended = true → pre.getLast? = some (byteN 255) ∧
        ∀ rest fuelr, (pre ++ rest).length < fuelr →
          applyGo env fuelr (pre ++ rest) st = .ok (st', rest, true)) ∧
      (ended = false → rem = []) := by
  intro fuel
  induction fuel with
  | zero =>
    intro l st st' rem ended h
    rw [applyGo_zero_eq] at h
    exact absurd h (by simp)
  | succ n ih =>
    intro l st st' rem ended h
    cases l with
    | nil =>
      rw [applyGo_nil_eq] at h
      simp only [Except.ok.injEq, Prod.mk.injEq] at h
      obtain ⟨rfl, rfl, rfl⟩ := h
      exact ⟨[], rfl, fun hE => absurd hE (by simp), fun _ => rfl⟩
    | cons b t =>
      cases hop : OpCode.from_byte b with
      | none =>
        rw [applyGo_none_eq env n t st hop] at h
        exact absurd h (by simp)
      | some op =>
        by_cases hend : op = OpCode.endFrame
        · subst hend
          rw [applyGo_end_eq env n t st hop] at h
          simp only [Except.ok.injEq, Prod.mk.injEq] at h
          obtain ⟨rfl, rfl, rfl⟩ := h
          refine ⟨[b], rfl, fun _ => ⟨?_, ?_⟩, fun hf => absurd hf (by simp)⟩
          · rw [from_byte_endFrame hop]; rfl
          · intro rest fuelr hlen
            cases fuelr with
            | zero => simp at hlen
            | succ k => exact applyGo_end_eq env k rest st hop
        · rw [applyGo_step_eq env n t st hop hend] at h
          cases hstep : stepOf env op st t with
          | error e =>
            rw [hstep] at h
            exact absurd h (by simp)
          | ok p =>
            obtain ⟨st₁, rem₁⟩ := p
            rw [hstep] at h
            obtain ⟨pre₂, rfl, hEnd, hEof⟩ := ih rem₁ st₁ st' rem ended h
            obtain ⟨pre₁, ht, hre₁⟩ := consumes_stepOf env op st t st₁ _ hstep
            subst ht
            refine ⟨b :: pre₁ ++ pre₂, by simp, fun hEnded => ?_, hEof⟩
            obtain ⟨hlast₂, hrun₂⟩ := hEnd hEnded
            have hne₂ : pre₂ ≠ [] := by
              intro hh
              rw [hh] at hlast₂
              simp at hlast₂
            constructor
            · rw [show (b :: pre₁ ++ pre₂) = (b :: pre₁) ++ pre₂ from rfl,
                List.getLast?_append_of_ne_nil _ hne₂]
              exact hlast₂
            · intro rest fuelr hlen
              cases fuelr with
              | zero => simp at hlen
              | succ k =>
                have heq : (b :: pre₁ ++ pre₂) ++ rest = b :: (pre₁ ++ (pre₂ ++ rest)) := by
                  simp
                rw [heq, applyGo_step_eq env k _ st hop hend, hre₁ (pre₂ ++ rest)]
                refine hrun₂ rest k ?_
                rw [heq] at hlen
                simp only [List.length_cons, List.length_append] at hlen ⊢
                omega

theorem applyGo_errs (env : Env) (hfont : env.fontOk = true) :
    ∀ fuel l st e, l.length < fuel → applyGo env fuel l st = .error e →
      e = .unknownOpcode ∨ e = .eob ∨ e = .badUtf8 := by
  intro fuel
  induction fuel with
  | zero => intro l st e hl h; omega
  | succ n ih =>
    intro l st e hl h
    cases l with
    | nil =>
      rw [applyGo_nil_eq] at h
      exact absurd h (by simp)
    | cons b t =>
      cases hop : OpCode.from_byte b with
      | none =>
        rw [applyGo_none_eq env n t st hop] at h
        injection h with he
        exact Or.inl he.symm
      | some op =>
        by_cases hend : op = OpCode.endFrame
        · subst hend
          rw [applyGo_end_eq env n t st hop] at h
          exact absurd h (by simp)
        · rw [applyGo_step_eq env n t st hop hend] at h
          cases hstep : stepOf env op st t with
          | error e' =>
            rw [hstep] at h
            injection h with he
            subst he
            rcases errs_stepOf env op st t e' hstep with h1 | h1 | ⟨-, h2⟩
            · exact Or.inr (Or.inl h1)
            · exact Or.inr (Or.inr h1)
            · rw [hfont] at h2; exact absurd h2 (by simp)
          | ok p =>
            obtain ⟨st₁, rem₁⟩ := p
            rw [hstep] at h
            refine ih rem₁ st₁ e ?_ h
            have hlen := consumes_len (consumes_stepOf env op st) hstep
            simp only [List.length_cons] at hl
            omega

theorem step_shape_pure {α β : Type} {m : DecM α} {g : α → β} {l : List Byte}
    {b : β} {rem : List Byte}
    (h : (m >>= fun a => pure (g a)) l = .ok (b, rem)) : ∃ a, b = g a := by
  obtain ⟨a, l₁, -, h2⟩ := DecM.bind_ok h
  simp only [DecM.pure_def, Except.ok.injEq, Prod.mk.injEq] at h2
  exact ⟨a, h2.1.symm⟩

theorem step_shape_liftRes {α β : Type} {m : DecM α} {g : α → Except DErr β}
    {l : List Byte} {b : β} {rem : List Byte}
    (h : (m >>= fun a => liftRes (g a)) l = .ok (b, rem)) : ∃ a, g a = .ok b := by
  obtain ⟨a, l₁, -, h2⟩ := DecM.bind_ok h
  cases hg : g a with
  | ok x =>
    unfold liftRes at h2
    rw [hg] at h2
    simp only [Except.ok.injEq, Prod.mk.injEq] at h2
    exact ⟨a, by rw [hg, h2.1]⟩
  | error e =>
    unfold liftRes at h2
    rw [hg] at h2
    exact absurd h2 (by simp)

theorem mem_beginApply {c : Cmd} (f : BeginFields) (st : AState)
    (h : c ∈ (beginApply f st).scene) : c ∈ st.scene := h

theorem mem_rectApply {c : Cmd} (f : RectFields) (st : AState)
    (h : c ∈ (rectApply f st).scene) : c ∈ st.scene ∨ AlphaClamped c := by
  simp only [rectApply, pushCmd, List.mem_append, List.mem_singleton] at h
  rcases h with h | rfl
  · exact Or.inl h
  · exact Or.inr ⟨f.a, f.opacity, rfl⟩

theorem mem_pathApply {c : Cmd} (env : Env) (f : PathFields) (st : AState)
    (h : c ∈ (pathApply env f st).scene) : c ∈ st.scene ∨ AlphaClamped c := by
  unfold pathApply at h
  split_ifs at h
  · unfold pushCmds at h
    simp only [AState.scene, List.mem_append] at h
    rcases h with h | h
    · exact Or.inl h
    · refine Or.inr ?_
      unfold pathCmds at h
      simp only [List.mem_append] at h
      rcases h with h | h
      · cases hf : f.fill with
        | none => rw [hf] at h; simp at h
        | some q =>
          obtain ⟨r, g, b, a⟩ := q
          rw [hf] at h
          simp only [List.mem_singleton] at h
          subst h
          exact ⟨a, f.opacity, rfl⟩
      · cases hs : f.stroke with
        | none => rw [hs] at h; simp at h
        | some q =>
          obtain ⟨w, r, g, b, a⟩ := q
          rw [hs] at h
          simp only [List.mem_singleton] at h
          subst h
          exact ⟨a, f.opacity, rfl⟩
  · exact Or.inl h

theorem mem_textRun {c : Cmd} (env : Env) (f : TextFields) (st : AState)
    (h : c ∈ (textRun env f st).scene) : c ∈ st.scene ∨ AlphaClamped c := by
  unfold textRun at h
  split_ifs at h
  · exact Or.inl h
  · exact Or.inl h
  · simp only [pushCmd, AState.scene, List.mem_append, List.mem_singleton] at h
    rcases h with h | rfl
    · exact Or.inl h
    · exact Or.inr ⟨f.a, f.opacity, rfl⟩

theorem mem_textApply {c : Cmd} (env : Env) (f : TextFields) (st st' : AState)
    (ht : textApply env f st = .ok st') (h : c ∈ st'.scene) :
    c ∈ st.scene ∨ AlphaClamped c := by
  unfold textApply at ht
  split_ifs at ht
  · injection ht with ht'
    subst ht'
    exact Or.inl h
  · injection ht with ht'
    subst ht'
    exact mem_textRun env f st h

theorem mem_stepOf {c : Cmd} (env : Env) (op : OpCode) (st st' : AState)
    (t rem : List Byte) (hstep : stepOf env op st t = .ok (st', rem))
    (h : c ∈ st'.scene) : c ∈ st.scene ∨ AlphaClamped c := by
  cases op with
  | beginFrame =>
    obtain ⟨f, rfl⟩ := step_shape_pure hstep
    exact Or.inl (mem_beginApply f st h)
  | rect =>
    obtain ⟨f, rfl⟩ := step_shape_pure hstep
    exact mem_rectApply f st h
  | path =>
    obtain ⟨f, rfl⟩ := step_shape_pure hstep
    exact mem_pathApply env f st h
  | text =>
    obtain ⟨f, hf⟩ := step_shape_liftRes hstep
    exact mem_textApply env f st st' hf h
  | endFrame =>
    have hst : st' = st := by
      simp only [stepOf, DecM.pure_def, Except.ok.injEq, Prod.mk.injEq] at hstep
      exact hstep.1.symm
    subst hst
    exact Or.inl h

theorem applyGo_alpha (env : Env) :
    ∀ fuel l st st' rem ended, applyGo env fuel l st = .ok (st', rem, ended) →
      ∀ c ∈ st'.scene, c ∈ st.scene ∨ AlphaClamped c := by
  intro fuel
  induction fuel with
  | zero =>
    intro l st st' rem ended h
    rw [applyGo_zero_eq] at h
    exact absurd h (by simp)
  | succ n ih =>
    intro l st st' rem ended h
    cases l with
    | nil =>
      rw [applyGo_nil_eq] at h
      simp only [Except.ok.injEq, Prod.mk.injEq] at h
      obtain ⟨rfl, -, -⟩ := h
      exact fun c hc => Or.inl hc
    | cons b t =>
      cases hop : OpCode.from_byte b with
      | none =>
        rw [applyGo_none_eq env n t st hop] at h
        exact absurd h (by simp)
      | some op =>
        by_cases hend : op = OpCode.endFrame
        · subst hend
          rw [applyGo_end_eq env n t st hop] at h
          simp only [Except.ok.injEq, Prod.mk.injEq] at h
          obtain ⟨rfl, -, -⟩ := h
          exact fun c hc => Or.inl hc
        · rw [applyGo_step_eq env n t st hop hend] at h
          cases hstep : stepOf env op st t with
          | error e =>
            rw [hstep] at h
            exact absurd h (by simp)
          | ok p =>
            obtain ⟨st₁, rem₁⟩ := p
            rw [hstep] at h
            intro c hc
            rcases ih rem₁ st₁ st' rem ended h c hc with h1 | h1
            · exact mem_stepOf env op st st₁ t rem₁ hstep h1
            · exact Or.inr h1

theorem measure_nil (M : FontModel) (fb : ℚ) : measure_text_width [] M fb = 0 := rfl

theorem measure_cons (c : Char) (cs : List Char) (M : FontModel) (fb : ℚ) :
    measure_text_width (c :: cs) M fb =
      charAdvance M fb c + measure_text_width cs M fb := by
  simp [measure_text_width]

theorem measure_append (l₁ l₂ : List Char) (M : FontModel) (fb : ℚ) :
    measure_text_width (l₁ ++ l₂) M fb =
      measure_text_width l₁ M fb + measure_text_width l₂ M fb := by
  simp [measure_text_width]

theorem measure_space (M : FontModel) (fb : ℚ) :
    measure_text_width [' '] M fb = charAdvance M fb ' ' := by
  simp [measure_text_width]

theorem splitWs_aux_inv (l : List Char) :
    (∀ c ∈ (l.foldr splitWsStep ([], [])).1, ¬rustIsWs c) ∧
    (∀ w ∈ (l.foldr splitWsStep ([], [])).2, w ≠ [] ∧ ∀ c ∈ w, ¬rustIsWs c) := by
  induction l with
  | nil => simp
  | cons c t ih =>
    obtain ⟨ih1, ih2⟩ := ih
    simp only [List.foldr_cons]
    unfold splitWsStep
    split_ifs with hws hcur
    · exact ⟨by simp, ih2⟩
    · refine ⟨by simp, ?_⟩
      intro w hw
      rcases List.mem_cons.mp hw with rfl | hw
      · exact ⟨hcur, ih1⟩
      · exact ih2 w hw
    · refine ⟨?_, ih2⟩
      intro x hx
      rcases List.mem_cons.mp hx with rfl | hx
      · exact hws
      · exact ih1 x hx

theorem splitWs_sound {l w : List Char} (h : w ∈ splitWs l) :
    w ≠ [] ∧ ∀ c ∈ w, ¬rustIsWs c := by
  unfold splitWs at h
  dsimp only at h
  obtain ⟨h1, h2⟩ := splitWs_aux_inv l
  split_ifs at h with hc
  · exact h2 w h
  · rcases List.mem_cons.mp h with rfl | h
    · exact ⟨hc, h1⟩
    · exact h2 w h

theorem splitNl_aux_len (l : List Char) :
    (l.foldr splitNlStep ([], [])).2.length = l.count '\n' := by
  induction l with
  | nil => simp
  | cons c t ih =>
    rw [List.foldr_cons,
      show splitNlStep c (t.foldr splitNlStep ([], [])) =
        (if c = '\n' then
          ([], (t.foldr splitNlStep ([], [])).1 :: (t.foldr splitNlStep ([], [])).2)
        else
          (c :: (t.foldr splitNlStep ([], [])).1,
            (t.foldr splitNlStep ([], [])).2)) from rfl]
    split_ifs with hc
    · subst hc
      simp [List.count_cons, ih]
    · have hne : ('\n' == c) = false := by
        simp only [beq_eq_false_iff_ne, ne_eq]
        exact fun hx => hc hx.symm
      simp [List.count_cons, hne, ih, hc]

theorem splitLines_length (l : List Char) :
    (splitLines l).length = l.count '\n' + 1 := by
  unfold splitLines
  simp [splitNl_aux_len l]

theorem joinWords_append_single (ws : List (List Char)) (w : List Char)
    (h : ws ≠ []) : joinWords (ws ++ [w]) = joinWords ws ++ ' ' :: w := by
  induction ws with
  | nil => contradiction
  | cons x xs ih =>
    cases xs with
    | nil => rfl
    | cons y ys =>
      have h1 : joinWords ((x :: y :: ys) ++ [w]) =
          x ++ ' ' :: joinWords ((y :: ys) ++ [w]) := rfl
      have h2 : joinWords (x :: y :: ys) = x ++ ' ' :: joinWords (y :: ys) := rfl
      rw [h1, ih (by simp), h2]
      simp

theorem mem_joinWords {c : Char} :
    ∀ {ws : List (List Char)}, c ∈ joinWords ws → c = ' ' ∨ ∃ w ∈ ws, c ∈ w := by
  intro ws
  induction ws with
  | nil => intro h; simp [joinWords] at h
  | cons x xs ih =>
    cases xs with
    | nil =>
      intro h
      exact Or.inr ⟨x, by simp, by simpa [joinWords] using h⟩
    | cons y ys =>
      intro h
      rw [show joinWords (x :: y :: ys) = x ++ ' ' :: joinWords (y :: ys) from rfl] at h
      simp only [List.mem_append, List.mem_cons] at h
      rcases h with h | h | h
      · exact Or.inr ⟨x, by simp, h⟩
      · exact Or.inl h
      · rcases ih h with h' | ⟨w, hw, hcw⟩
        · exact Or.inl h'
        · exact Or.inr ⟨w, by simp [hw], hcw⟩

theorem wrapStep_facts {M : FontModel} {fb spaceW m : ℚ} {raw : List Char}
    (hsp : spaceW = measure_text_width [' '] M fb)
    (s : List Char × ℚ × List LineLayout) (word : List Char)
    (hw : word ∈ splitWs raw)
    (h1 : measure_text_width s.1 M fb = s.2.1)
    (h2 : s.2.1 ≤ m ∨ s.1 ∈ splitWs raw)
    (h3 : ∀ L ∈ s.2.2, measure_text_width L.text M fb ≤ m ∨ L.text ∈ splitWs raw) :
    measure_text_width (wrapStep M fb spaceW m s word).1 M fb =
        (wrapStep M fb spaceW m s word).2.1 ∧
    ((wrapStep M fb spaceW m s word).2.1 ≤ m ∨
        (wrapStep M fb spaceW m s word).1 ∈ splitWs raw) ∧
    (∀ L ∈ (wrapStep M fb spaceW m s word).2.2,
        measure_text_width L.text M fb ≤ m ∨ L.text ∈ splitWs raw) := by
  unfold wrapStep
  dsimp only
  split_ifs with hc hnext
  · exact ⟨rfl, Or.inr hw, h3⟩
  · refine ⟨?_, Or.inl hnext, h3⟩
    rw [measure_append, measure_cons, h1, hsp, measure_space]
    ring
  · refine ⟨rfl, Or.inr hw, ?_⟩
    intro L hL
    rcases List.mem_append.mp hL with hL | hL
    · exact h3 L hL
    · simp only [List.mem_singleton] at hL
      subst hL
      rcases h2 with h | h
      · left; rw [h1]; exact h
      · right; exact h

theorem wrapFold_facts {M : FontModel} {fb spaceW m : ℚ} {raw : List Char}
    (hsp : spaceW = measure_text_width [' '] M fb) :
    ∀ (ws : List (List Char)) (s : List Char × ℚ × List LineLayout),
      (∀ w ∈ ws, w ∈ splitWs raw) →
      measure_text_width s.1 M fb = s.2.1 →
      (s.2.1 ≤ m ∨ s.1 ∈ splitWs raw) →
      (∀ L ∈ s.2.2, measure_text_width L.text M fb ≤ m ∨ L.text ∈ splitWs raw) →
      measure_text_width (ws.foldl (wrapStep M fb spaceW m) s).1 M fb =
          (ws.foldl (wrapStep M fb spaceW m) s).2.1 ∧
      ((ws.foldl (wrapStep M fb spaceW m) s).2.1 ≤ m ∨
          (ws.foldl (wrapStep M fb spaceW m) s).1 ∈ splitWs raw) ∧
      (∀ L ∈ (ws.foldl (wrapStep M fb spaceW m) s).2.2,
          measure_text_width L.text M fb ≤ m ∨ L.text ∈ splitWs raw) := by
  intro ws
  induction ws with
  | nil => intro s _ h1 h2 h3; exact ⟨h1, h2, h3⟩
  | cons w ws ih =>
    intro s hmem h1 h2 h3
    rw [List.foldl_cons]
    obtain ⟨g1, g2, g3⟩ := wrapStep_facts hsp s w (hmem w (by simp)) h1 h2 h3
    exact ih _ (fun x hx => hmem x (by simp [hx])) g1 g2 g3

theorem wrapRawLine_width {M : FontModel} {fb spaceW m : ℚ} {raw : List Char}
    (hm : 0 < m) (hsp : spaceW = measure_text_width [' '] M fb) :
    ∀ L ∈ wrapRawLine M fb spaceW m raw,
      measure_text_width L.text M fb ≤ m ∨ L.text ∈ splitWs raw := by
  intro L hL
  unfold wrapRawLine at hL
  cases hws : splitWs raw with
  | nil =>
    rw [hws] at hL
    simp only [List.mem_singleton] at hL
    subst hL
    left
    simpa [measure_text_width] using le_of_lt hm
  | cons w ws' =>
    rw [hws] at hL
    obtain ⟨hf1, hf2, hf3⟩ :=
      @wrapFold_facts M fb spaceW m raw hsp (w :: ws') ([], 0, [])
        (fun x hx => by rw [hws]; exact hx)
        (by simp [measure_text_width]) (Or.inl (le_of_lt hm)) (by simp)
    rw [hws] at hf2 hf3
    simp only [List.mem_append, List.mem_singleton] at hL
    rcases hL with hL | rfl
    · exact hf3 L hL
    · rcases hf2 with h | h
      · left; rw [hf1]; exact h
      · right; exact h

theorem mem_wrap_text_lines {L : LineLayout} {text : List Char} {maxw : Rf32}
    {M : FontModel} {fb m : ℚ} (hm : finPos maxw = some m)
    (hL : L ∈ wrap_text_lines text maxw M fb) :
    ∃ raw ∈ splitLines text,
      L ∈ wrapRawLine M fb (measure_text_width [' '] M fb) m raw := by
  unfold wrap_text_lines at hL
  rw [hm] at hL
  simp only [List.mem_flatten, List.mem_map] at hL
  obtain ⟨piece, ⟨raw, hraw, rfl⟩, hmem⟩ := hL
  exact ⟨raw, hraw, hmem⟩

theorem wrapStep_clean {M : FontModel} {fb spaceW m : ℚ} {raw : List Char}
    (s : List Char × ℚ × List LineLayout) (word : List Char)
    (hw : word ∈ splitWs raw)
    (h1 : s.1 = [] ∨ ∃ ws, ws ≠ [] ∧
      (∀ w ∈ ws, w ≠ [] ∧ ∀ c ∈ w, ¬rustIsWs c) ∧ s.1 = joinWords ws)
    (h3 : ∀ L ∈ s.2.2, L.text = [] ∨ ∃ ws, ws ≠ [] ∧
      (∀ w ∈ ws, w ≠ [] ∧ ∀ c ∈ w, ¬rustIsWs c) ∧ L.text = joinWords ws) :
    ((wrapStep M fb spaceW m s word).1 = [] ∨ ∃ ws, ws ≠ [] ∧
      (∀ w ∈ ws, w ≠ [] ∧ ∀ c ∈ w, ¬rustIsWs c) ∧
      (wrapStep M fb spaceW m s word).1 = joinWords ws) ∧
    (∀ L ∈ (wrapStep M fb spaceW m s word).2.2, L.text = [] ∨ ∃ ws, ws ≠ [] ∧
      (∀ w ∈ ws, w ≠ [] ∧ ∀ c ∈ w, ¬rustIsWs c) ∧ L.text = joinWords ws) := by
  have hword := splitWs_sound hw
  unfold wrapStep
  dsimp only
  split_ifs with hc hnext
  · refine ⟨Or.inr ⟨[word], by simp, ?_, rfl⟩, h3⟩
    intro w hw'
    simp only [List.mem_singleton] at hw'
    subst hw'
    exact hword
  · rcases h1 with h1 | ⟨ws, hne, hgood, hjoin⟩
    · exact absurd h1 hc
    refine ⟨Or.inr ⟨ws ++ [word], by simp, ?_, ?_⟩, h3⟩
    · intro w hw'
      rcases List.mem_append.mp hw' with hw' | hw'
      · exact hgood w hw'
      · simp only [List.mem_singleton] at hw'
        subst hw'
        exact hword
    · rw [joinWords_append_single ws word hne, hjoin]
  · refine ⟨Or.inr ⟨[word], by simp, ?_, rfl⟩, ?_⟩
    · intro w hw'
      simp only [List.mem_singleton] at hw'
      subst hw'
      exact hword
    · intro L hL
      rcases List.mem_append.mp hL with hL | hL
      · exact h3 L hL
      · simp only [List.mem_singleton] at hL
        subst hL
        exact h1

theorem wrapFold_clean {M : FontModel} {fb spaceW m : ℚ} {raw : List Char} :
    ∀ (wsl : List (List Char)) (s : List Char × ℚ × List LineLayout),
      (∀ w ∈ wsl, w ∈ splitWs raw) →
      (s.1 = [] ∨ ∃ ws, ws ≠ [] ∧
        (∀ w ∈ ws, w ≠ [] ∧ ∀ c ∈ w, ¬rustIsWs c) ∧ s.1 = joinWords ws) →
      (∀ L ∈ s.2.2, L.text = [] ∨ ∃ ws, ws ≠ [] ∧
        (∀ w ∈ ws, w ≠ [] ∧ ∀ c ∈ w, ¬rustIsWs c) ∧ L.text = joinWords ws) →
      ((wsl.foldl (wrapStep M fb spaceW m) s).1 = [] ∨ ∃ ws, ws ≠ [] ∧
        (∀ w ∈ ws, w ≠ [] ∧ ∀ c ∈ w, ¬rustIsWs c) ∧
        (wsl.foldl (wrapStep M fb spaceW m) s).1 = joinWords ws) ∧
      (∀ L ∈ (wsl.foldl (wrapStep M fb spaceW m) s).2.2, L.text = [] ∨ ∃ ws, ws ≠ [] ∧
        (∀ w ∈ ws, w ≠ [] ∧ ∀ c ∈ w, ¬rustIsWs c) ∧ L.text = joinWords ws) := by
  intro wsl
  induction wsl with
  | nil => intro s _ h1 h3; exact ⟨h1, h3⟩
  | cons w ws ih =>
    intro s hmem h1 h3
    rw [List.foldl_cons]
    obtain ⟨g1, g3⟩ := wrapStep_clean s w (hmem w (by simp)) h1 h3
    exact ih _ (fun x hx => hmem x (by simp [hx])) g1 g3

theorem wrapRawLine_clean {M : FontModel} {fb spaceW m : ℚ} {raw : List Char} :
    ∀ L ∈ wrapRawLine M fb spaceW m raw, L.text = [] ∨ ∃ ws, ws ≠ [] ∧
      (∀ w ∈ ws, w ≠ [] ∧ ∀ c ∈ w, ¬rustIsWs c) ∧ L.text = joinWords ws := by
  intro L hL
  unfold wrapRawLine at hL
  cases hws : splitWs raw with
  | nil =>
    rw [hws] at hL
    simp only [List.mem_singleton] at hL
    subst hL
    exact Or.inl rfl
  | cons w ws' =>
    rw [hws] at hL
    obtain ⟨hf1, hf3⟩ :=
      @wrapFold_clean M fb spaceW m raw
        (w :: ws') ([], 0, []) (fun x hx => by rw [hws]; exact hx)
        (Or.inl rfl) (by simp)
    simp only [List.mem_append, List.mem_singleton] at hL
    rcases hL with hL | rfl
    · exact hf3 L hL
    · exact hf1

theorem computedDim_nan : computedDim .nan = 0 := rfl

theorem castU32_one : castU32 (.fin 1) = 1 := by
  norm_num [castU32, u32Max]

theorem castU32_fmax : castU32 (.fin f32MaxQ) = u32Max := by
  norm_num [castU32, u32Max, f32MaxQ]

theorem computedDim_spec (p : Rf32) (hp : p ≠ .nan) :
    computedDim p = specDimTotal p ∧ 1 ≤ computedDim p := by
  match p with
  | .nan => exact absurd rfl hp
  | .inf true =>
    refine ⟨?_, ?_⟩ <;>
      norm_num [computedDim, specDimTotal, Rf32.round, rustClamp, Rf32.lt,
        castU32, u32Max]
  | .inf false =>
    refine ⟨?_, ?_⟩ <;>
      norm_num [computedDim, specDimTotal, Rf32.round, rustClamp, Rf32.lt,
        castU32, u32Max, f32MaxQ]
  | .fin q =>
    have hu : u32Max = 4294967295 := rfl
    unfold computedDim
    rw [show (Rf32.fin q).round = .fin ((roundAwayQ q : ℤ) : ℚ) from rfl]
    unfold rustClamp
    simp only [Rf32.lt, decide_eq_true_eq, specDimTotal]
    split_ifs with h1 h2
    · have hlt : roundAwayQ q < 1 := by exact_mod_cast h1
      have htn : (roundAwayQ q).toNat = 0 := by omega
      rw [castU32_one, htn]
      constructor <;> omega
    · rw [castU32_fmax]
      have hq : ((u32Max : ℕ) : ℚ) < f32MaxQ := by norm_num [u32Max, f32MaxQ]
      have hlt : (u32Max : ℤ) < roundAwayQ q := by exact_mod_cast lt_trans hq h2
      have h4 : u32Max ≤ (roundAwayQ q).toNat := by omega
      constructor <;> omega
    · have h1' : (1 : ℤ) ≤ roundAwayQ q := by exact_mod_cast not_lt.mp h1
      have hpos : ¬(((roundAwayQ q : ℤ) : ℚ) ≤ 0) := by
        push_neg
        exact_mod_cast (by omega : (0 : ℤ) < roundAwayQ q)
      simp only [castU32, hpos, if_false, Int.floor_intCast]
      have htn : 1 ≤ (roundAwayQ q).toNat := by omega
      constructor <;> omega

theorem resize_zero (w h : ℕ) (st : GpuState) (h0 : w = 0 ∨ h = 0) :
    resize w h st = st := by
  unfold resize
  rw [if_pos h0]

theorem resize_dims {w h : ℕ} (st : GpuState) (hw : 1 ≤ w) (hh : 1 ≤ h) :
    (resize w h st).width = w ∧ (resize w h st).height = h := by
  unfold resize
  split_ifs with h1 h2
  · rcases h1 with rfl | rfl <;> omega
  · exact ⟨h2.1, h2.2⟩
  · exact ⟨rfl, rfl⟩

theorem finPos_pos {x : Rf32} {m : ℚ} (h : finPos x = some m) : 0 < m := by
  match x, h with
  | .fin q, h =>
    rw [show finPos (.fin q) = if 0 < q then some q else none from rfl] at h
    split_ifs at h with h0
    injection h with h'
    subst h'
    exact h0
  | .nan, h => exact absurd h (by simp [finPos])
  | .inf s, h => exact absurd h (by simp [finPos])

/-- C1: if `apply(B)` returns successfully, the decoder consumed exactly a
prefix of `B`: when the loop was terminated by an `EndFrame` opcode the
consumed prefix ends with the `EndFrame` byte 255 and the bytes after it are
never read (running on the prefix extended by any suffix yields the same
state and leaves that suffix untouched); when no `EndFrame` was met the
whole buffer was consumed, and reaching end-of-buffer without `EndFrame` is
success with the scene committed as-is. -/
theorem c1_apply_consumes_framed_prefix (env : Env) (B : List Byte)
    (g : GpuState) (st' : AState) (rem : List Byte) (ended : Bool)
    (h : applyRun env B g = .ok (st', rem, ended)) :
    ∃ pre, B = pre ++ rem ∧
      (ended = true → pre.getLast? = some (byteN 255) ∧
        ∀ rest, applyRun env (pre ++ rest) g = .ok (st', rest, true)) ∧
      (ended = false → rem = []) := by
  obtain ⟨pre, hpre, hEnd, hEof⟩ :=
    applyGo_consumes env (B.length + 1) B (initState g) st' rem ended h
  refine ⟨pre, hpre, fun hE => ?_, hEof⟩
  obtain ⟨hlast, hrun⟩ := hEnd hE
  exact ⟨hlast, fun rest => hrun rest ((pre ++ rest).length + 1) (by omega)⟩

theorem c1_witness :
    ∃ pre, ([byteN 255] : List Byte) = pre ++ [] ∧
      (true = true → pre.getLast? = some (byteN 255) ∧
        ∀ rest, applyRun envStd (pre ++ rest) gpu7 =
          .ok (initState gpu7, rest, true)) ∧
      (true = false → ([] : List Byte) = []) :=
  c1_apply_consumes_framed_prefix envStd [byteN 255] gpu7 (initState gpu7) [] true
    (by norm_num [applyRun, applyGo, byteN, OpCode.from_byte])

/-- C2: a successful `apply` never reports an error, and when `apply` fails
(with the embedded font valid, as it is for the baked-in asset) the error is
exactly one of: unknown opcode byte, a primitive read crossing the end of
the buffer, or invalid UTF-8 in a string field; moreover an unrecognized
opcode byte in opcode position always errors, and a primitive read short of
buffer always errors with the end-of-buffer error. -/
theorem c2_decode_errors :
    (∀ (env : Env) (B : List Byte) (g : GpuState) (e : DErr),
      env.fontOk = true → applyBytes env B g = .error e →
      e = .unknownOpcode ∨ e = .eob ∨ e = .badUtf8) ∧
    (∀ (env : Env) (g : GpuState) (b : Byte) (t : List Byte),
      OpCode.from_byte b = none →
      applyBytes env (b :: t) g = .error .unknownOpcode) ∧
    (∀ l : List Byte, l.length < 4 → readF32 l = .error .eob) ∧
    (∀ (len : ℕ) (l : List Byte), l.length < len →
      readString len l = .error .eob) := by
  refine ⟨?_, ?_, ?_, ?_⟩
  · intro env B g e hfont h
    unfold applyBytes at h
    cases hr : applyRun env B g with
    | ok p =>
      rw [hr] at h
      exact absurd h (by simp [Except.map])
    | error e' =>
      rw [hr] at h
      simp only [Except.map] at h
      injection h with he
      subst he
      exact applyGo_errs env hfont (B.length + 1) B (initState g) e' (by omega) hr
  · intro env g b t hop
    unfold applyBytes applyRun
    rw [List.length_cons, applyGo_none_eq env (t.length + 1) t (initState g) hop]
    rfl
  · intro l hl
    rcases l with _ | ⟨a, _ | ⟨b, _ | ⟨c, _ | ⟨d, t⟩⟩⟩⟩
    · rfl
    · rfl
    · rfl
    · rfl
    · exact absurd hl (by simp)
  · intro len l hl
    unfold readString
    rw [if_neg (by omega)]

theorem c2_witness :
    DErr.unknownOpcode = .unknownOpcode ∨ DErr.unknownOpcode = .eob ∨
      DErr.unknownOpcode = .badUtf8 :=
  c2_decode_errors.1 envStd [byteN 9] gpu7 .unknownOpcode rfl
    (by norm_num [applyBytes, applyRun, applyGo, byteN, OpCode.from_byte,
      Except.map])

/-- C3 counterexample: a `BeginFrame` record whose `logical_width * dpr` is
NaN (here `logical_width = NaN`, `dpr = 1`) leaves the surface dimensions
unchanged — width stays 7 from one prior state, 8 from another — while the
claim's formula `max(1, round(NaN * 1))` (with Rust `max` semantics) gives
1. The post-record dimensions are neither 1 nor a function of the record
alone, so the claim as stated is false. The full byte-level pipeline run on
an encoded NaN record confirms the no-op. -/
theorem c3_counterexample :
    (beginApply ⟨.nan, .fin 1, .fin 1, .fin 0, .fin 0, .fin 0, .fin 1⟩
        (initState gpu7)).gpu.width = 7 ∧
    (beginApply ⟨.nan, .fin 1, .fin 1, .fin 0, .fin 0, .fin 0, .fin 1⟩
        (initState gpu8)).gpu.width = 8 ∧
    specDimClaim (Rf32.mul .nan (.fin 1)) = 1 ∧
    (7 : ℕ) ≠ 1 ∧ (7 : ℕ) ≠ 8 ∧
    applyBytes envStd nanBuf gpu7 =
      .ok ⟨[], ⟨.fin 0, .fin 0, .fin 0, .fin 1⟩, gpu7⟩ := by
  refine ⟨?_, ?_, ?_, by norm_num, by norm_num, ?_⟩
  · norm_num [beginApply, computedDim, Rf32.mul, Rf32.round, rustClamp, Rf32.lt,
      castU32, resize, initState, gpu7]
  · norm_num [beginApply, computedDim, Rf32.mul, Rf32.round, rustClamp, Rf32.lt,
      castU32, resize, initState, gpu8]
  · norm_num [specDimClaim, Rf32.mul, Rf32.round, rustMaxF, castU32, u32Max]
  · norm_num [applyBytes, applyRun, applyGo, nanBuf, f32le, byteN,
      OpCode.from_byte, stepOf, readBeginFields, DecM.bind_def, DecM.pure_def,
      readF32, leWord, decodeF32bits, beginApply, computedDim, Rf32.mul,
      Rf32.round, rustClamp, Rf32.lt, castU32, resize, initState, gpu7,
      blackColor, Except.map]

/-- C3 amended: after a `BeginFrame` record is processed, when neither
product `logical_width * dpr` nor `logical_height * dpr` is NaN, the surface
dimensions equal `max(1, min(u32::MAX, round(product)))` in each axis (with
`-inf` giving 1 and `+inf` giving `u32::MAX`); when either product is NaN
the computed pixel size casts to 0, the resize is skipped entirely, and both
dimensions keep their previous values. -/
theorem c3_begin_frame_dims (f : BeginFields) (st : AState) :
    ((beginApply f st).gpu.width, (beginApply f st).gpu.height) =
      if f.lw.mul f.dpr = .nan ∨ f.lh.mul f.dpr = .nan then
        (st.gpu.width, st.gpu.height)
      else
        (specDimTotal (f.lw.mul f.dpr), specDimTotal (f.lh.mul f.dpr)) := by
  unfold beginApply
  dsimp only
  split_ifs with hnan
  · rcases hnan with h | h
    · rw [h, computedDim_nan, resize_zero _ _ _ (Or.inl rfl)]
    · rw [h, computedDim_nan, resize_zero _ _ _ (Or.inr rfl)]
  · push_neg at hnan
    obtain ⟨h1, h2⟩ := hnan
    obtain ⟨e1, ge1⟩ := computedDim_spec _ h1
    obtain ⟨e2, ge2⟩ := computedDim_spec _ h2
    obtain ⟨hw, hh⟩ := resize_dims st.gpu ge1 ge2
    rw [hw, hh, e1, e2]

/-- C4: a `Path` record whose SVG string fails to parse is dropped entirely:
no command is added and no error is raised; one that parses emits its fill
(with even-odd exactly when `fill_rule` is 1, else non-zero) before its
stroke, each present exactly when its flag was set; and after either
outcome the decode loop continues on the remaining bytes exactly as if
started there, so subsequent records still apply. -/
theorem c4_path_parse_tolerance :
    (∀ (env : Env) (f : PathFields) (st : AState),
      env.parse_ok f.path = false → pathApply env f st = st) ∧
    (∀ (env : Env) (f : PathFields) (st : AState),
      env.parse_ok f.path = true →
      pathApply env f st = pushCmds st (pathCmds f)) ∧
    (∀ (f : PathFields) (r g b a w r' g' b' a' : Rf32),
      f.fill = some (r, g, b, a) → f.stroke = some (w, r', g', b', a') →
      pathCmds f =
        [.fillPath (fillStyleOf f) f.tf (primColor f.opacity r g b a) f.path,
          .strokePath w f.tf (primColor f.opacity r' g' b' a') f.path]) ∧
    (∀ f : PathFields, f.fill_rule.val = 1 → fillStyleOf f = .evenOdd) ∧
    (∀ f : PathFields, f.fill_rule.val ≠ 1 → fillStyleOf f = .nonZero) ∧
    (∀ (env : Env) (fuel : ℕ) (t : List Byte) (st st' : AState)
      (rem : List Byte), stepOf env .path st t = .ok (st', rem) →
      applyGo env (fuel + 1) (byteN 3 :: t) st = applyGo env fuel rem st') := by
  refine ⟨?_, ?_, ?_, ?_, ?_, ?_⟩
  · intro env f st hfail
    unfold pathApply
    rw [hfail]
    rfl
  · intro env f st hok
    unfold pathApply
    rw [hok]
    rfl
  · intro f r g b a w r' g' b' a' hf hs
    unfold pathCmds
    rw [hf, hs]
    rfl
  · intro f h
    unfold fillStyleOf
    rw [if_pos h]
  · intro f h
    unfold fillStyleOf
    rw [if_neg h]
  · intro env fuel t st st' rem hstep
    have hop : OpCode.from_byte (byteN 3) = some .path := by
      norm_num [OpCode.from_byte, byteN]
    rw [applyGo_step_eq env fuel t st hop (by simp), hstep]

theorem c4_witness :
    pathApply envNoParse
      ⟨.fin 1, ⟨.fin 1, .fin 0, .fin 0, .fin 1, .fin 0, .fin 0⟩, byteN 0,
        none, none, ['a']⟩ (initState gpu7) = initState gpu7 :=
  c4_path_parse_tolerance.1 envNoParse
    ⟨.fin 1, ⟨.fin 1, .fin 0, .fin 0, .fin 1, .fin 0, .fin 0⟩, byteN 0,
      none, none, ['a']⟩ (initState gpu7) rfl

/-- C5: the color emitted for every `Rect`, `Path` fill, `Path` stroke and
`Text` primitive carries alpha `clamp(a * opacity, 0, 1)` — `primColor` is
exactly that formula, the `Rect` command uses it on the record's channels,
and every command in the scene of any successful `apply` has an alpha of
this clamped-product form — while the `BeginFrame` base color is stored
as-is, its alpha neither clamped nor multiplied by any opacity (a
`BeginFrame` record carries no opacity field at all). -/
theorem c5_alpha_clamp :
    (∀ opacity r g b a : Rf32,
      (primColor opacity r g b a).a = rustClamp (a.mul opacity) (.fin 0) (.fin 1)) ∧
    (∀ f : RectFields, (rectCmd f).color = primColor f.opacity f.r f.g f.b f.a) ∧
    (∀ (f : BeginFields) (st : AState),
      (beginApply f st).baseColor = ⟨f.r, f.g, f.b, f.a⟩) ∧
    (∀ (env : Env) (B : List Byte) (g : GpuState) (st' : AState)
      (rem : List Byte) (ended : Bool),
      applyRun env B g = .ok (st', rem, ended) →
      ∀ c ∈ st'.scene, AlphaClamped c) := by
  refine ⟨fun _ _ _ _ _ => rfl, fun _ => rfl, fun _ _ => rfl, ?_⟩
  intro env B g st' rem ended h c hc
  rcases applyGo_alpha env (B.length + 1) B (initState g) st' rem ended h c hc with
    h1 | h1
  · exact absurd h1 (by simp [initState])
  · exact h1

theorem c5_witness :
    ∀ c ∈ (initState gpu7).scene, AlphaClamped c :=
  c5_alpha_clamp.2.2.2 envStd [byteN 255] gpu7 (initState gpu7) [] true
    (by norm_num [applyRun, applyGo, byteN, OpCode.from_byte])

/-- C6: with a finite positive `max_width` m, every visual line the greedy
wrapper emits either has measured width at most m or consists of a single
whitespace word of the input (the case of a word wider than m, which is not
split and occupies its own line — only then may a line exceed m); in
particular, when every word of every raw line measures at most m, every
emitted line measures at most m. -/
theorem c6_wrap_width_bound (text : List Char) (maxw : Rf32) (M : FontModel)
    (fb m : ℚ) (hm : finPos maxw = some m) :
    (∀ L ∈ wrap_text_lines text maxw M fb,
      measure_text_width L.text M fb ≤ m ∨
        ∃ raw ∈ splitLines text, L.text ∈ splitWs raw) ∧
    ((∀ raw ∈ splitLines text, ∀ w ∈ splitWs raw,
        measure_text_width w M fb ≤ m) →
      ∀ L ∈ wrap_text_lines text maxw M fb,
        measure_text_width L.text M fb ≤ m) := by
  have hm' : 0 < m := finPos_pos hm
  constructor
  · intro L hL
    obtain ⟨raw, hraw, hLr⟩ := mem_wrap_text_lines hm hL
    rcases wrapRawLine_width hm' rfl L hLr with h | h
    · exact Or.inl h
    · exact Or.inr ⟨raw, hraw, h⟩
  · intro hall L hL
    obtain ⟨raw, hraw, hLr⟩ := mem_wrap_text_lines hm hL
    rcases wrapRawLine_width hm' rfl L hLr with h | h
    · exact h
    · exact hall raw hraw L.text h

theorem c6_witness :
    (∀ L ∈ wrap_text_lines ['a', 'b', ' ', 'c', 'd'] (.fin 100) fontStd 1,
      measure_text_width L.text fontStd 1 ≤ 100 ∨
        ∃ raw ∈ splitLines ['a', 'b', ' ', 'c', 'd'], L.text ∈ splitWs raw) ∧
    ((∀ raw ∈ splitLines ['a', 'b', ' ', 'c', 'd'],
        ∀ w ∈ splitWs raw, measure_text_width w fontStd 1 ≤ 100) →
      ∀ L ∈ wrap_text_lines ['a', 'b', ' ', 'c', 'd'] (.fin 100) fontStd 1,
        measure_text_width L.text fontStd 1 ≤ 100) :=
  c6_wrap_width_bound ['a', 'b', ' ', 'c', 'd'] (.fin 100) fontStd 1 100
    (by norm_num [finPos])

/-- C7: with a non-finite or non-positive `max_width`, wrapping emits
exactly one visual line per raw line obtained by splitting at newline, each
unchanged and carrying the sum of its character advances as width; a text
with k newlines yields k + 1 visual lines (empty raw lines included). -/
theorem c7_no_wrap_lines (text : List Char) (maxw : Rf32) (M : FontModel)
    (fb : ℚ) (hm : finPos maxw = none) :
    wrap_text_lines text maxw M fb =
      (splitLines text).map (fun raw => ⟨raw, measure_text_width raw M fb⟩) ∧
    (wrap_text_lines text maxw M fb).length = text.count '\n' + 1 := by
  have h1 : wrap_text_lines text maxw M fb =
      (splitLines text).map (fun raw => ⟨raw, measure_text_width raw M fb⟩) := by
    unfold wrap_text_lines
    dsimp only
    rw [hm]
  exact ⟨h1, by rw [h1, List.length_map, splitLines_length]⟩

theorem c7_witness :
    wrap_text_lines ['a', '\n', 'b'] (.fin 0) fontStd 1 =
      (splitLines ['a', '\n', 'b']).map
        (fun raw => ⟨raw, measure_text_width raw fontStd 1⟩) ∧
    (wrap_text_lines ['a', '\n', 'b'] (.fin 0) fontStd 1).length =
      (['a', '\n', 'b'].count '\n') + 1 :=
  c7_no_wrap_lines ['a', '\n', 'b'] (.fin 0) fontStd 1 (by norm_num [finPos])

/-- C8: `resize` is a complete no-op (surface configuration, offscreen
target, present bind group, and configure count all unchanged) when either
dimension is zero or the size equals the current configuration; for nonzero
dimensions different from the current size it sets the configuration,
reconfigures the surface once, and invalidates both the offscreen target
and the present bind group; consequently a repeated identical resize is
indistinguishable from a single one. -/
theorem c8_resize_semantics (w h : ℕ) (st : GpuState) :
    ((w = 0 ∨ h = 0 ∨ (st.width = w ∧ st.height = h)) → resize w h st = st) ∧
    (w ≠ 0 → h ≠ 0 → ¬(st.width = w ∧ st.height = h) →
      resize w h st =
        { width := w, height := h, offscreen := none, bindGroup := false,
          configures := st.configures + 1 }) ∧
    resize w h (resize w h st) = resize w h st := by
  refine ⟨?_, ?_, ?_⟩
  · intro h0
    unfold resize
    rcases h0 with h0 | h0 | h0
    · rw [if_pos (Or.inl h0)]
    · rw [if_pos (Or.inr h0)]
    · by_cases h1 : w = 0 ∨ h = 0
      · rw [if_pos h1]
      · rw [if_neg h1, if_pos h0]
  · intro hw hh hne
    unfold resize
    rw [if_neg (by simp [hw, hh]), if_neg hne]
  · by_cases h1 : w = 0 ∨ h = 0
    · rw [resize_zero w h st h1]
      exact resize_zero w h st h1
    · by_cases h2 : st.width = w ∧ st.height = h
      · have heq : resize w h st = st := by
          unfold resize
          rw [if_neg h1, if_pos h2]
        rw [heq]
        exact heq
      · have heq : resize w h st =
            { width := w, height := h, offscreen := none, bindGroup := false,
              configures := st.configures + 1 } := by
          unfold resize
          rw [if_neg h1, if_neg h2]
        rw [heq]
        unfold resize
        rw [if_neg h1, if_pos ⟨rfl, rfl⟩]

theorem c8_witness :
    resize 2 3 gpu7 =
      { width := 2, height := 3, offscreen := none, bindGroup := false,
        configures := 1 } :=
  (c8_resize_semantics 2 3 gpu7).2.1 (by decide) (by decide) (by decide)

/-- C9: `render`'s swap-chain acquisition mapping: `Timeout` returns
success without drawing and without reconfiguring; `Lost` and `Outdated`
reconfigure exactly once and retry once, a successful retry proceeding to
draw and any retry failure reported as an acquisition error; `OutOfMemory`
and other surface errors on the first acquire fail without any retry or
reconfigure. -/
theorem c9_render_acquire (s2 : AcqResult) :
    renderAcquire .timeout s2 = (.skipped, 0) ∧
    renderAcquire .lost .ok = (.drawn, 1) ∧
    renderAcquire .outdated .ok = (.drawn, 1) ∧
    (s2 ≠ .ok → renderAcquire .lost s2 = (.errAcquire, 1)) ∧
    (s2 ≠ .ok → renderAcquire .outdated s2 = (.errAcquire, 1)) ∧
    renderAcquire .oom s2 = (.errOutOfMemory, 0) ∧
    renderAcquire .other s2 = (.errOther, 0) := by
  refine ⟨rfl, rfl, rfl, ?_, ?_, rfl, rfl⟩
  · intro h
    unfold renderAcquire
    rw [if_neg h]
  · intro h
    unfold renderAcquire
    rw [if_neg h]

theorem c9_witness : renderAcquire .lost .lost = (.errAcquire, 1) :=
  (c9_render_acquire .lost).2.2.2.1 (by decide)

/-- C10: with a finite positive `max_width`, every wrapped visual line is
either empty or a join of nonempty whitespace-free words separated by
single spaces — so runs of whitespace (tabs included) are collapsed to one
space and leading/trailing whitespace is trimmed — and in particular no tab
character ever survives into a wrapped line, so the per-character tab
handling can only take effect when wrapping is off. -/
theorem c10_wrapped_lines_clean (text : List Char) (maxw : Rf32) (M : FontModel)
    (fb m : ℚ) (hm : finPos maxw = some m) :
    ∀ L ∈ wrap_text_lines text maxw M fb,
      (L.text = [] ∨ ∃ ws, ws ≠ [] ∧
        (∀ w ∈ ws, w ≠ [] ∧ ∀ c ∈ w, ¬rustIsWs c) ∧ L.text = joinWords ws) ∧
      '\t' ∉ L.text := by
  intro L hL
  obtain ⟨raw, hraw, hLr⟩ := mem_wrap_text_lines hm hL
  have hclean := wrapRawLine_clean L hLr
  refine ⟨hclean, ?_⟩
  intro htab
  rcases hclean with h | ⟨ws, hne, hgood, hjoin⟩
  · rw [h] at htab
    simp at htab
  · rw [hjoin] at htab
    rcases mem_joinWords htab with h | ⟨w, hw, hcw⟩
    · exact absurd h (by decide)
    · exact (hgood w hw).2 '\t' hcw (by decide)

theorem c10_witness :
    ((['a'] : List Char) = [] ∨ ∃ ws, ws ≠ [] ∧
      (∀ w ∈ ws, w ≠ [] ∧ ∀ c ∈ w, ¬rustIsWs c) ∧ (['a'] : List Char) = joinWords ws) ∧
    '\t' ∉ (['a'] : List Char) :=
  c10_wrapped_lines_clean ['a', '\t', 'b'] (.fin 10) fontStd 1 10
    (by norm_num [finPos]) ⟨['a'], 5⟩
    (by norm_num [wrap_text_lines, finPos, splitLines, splitNlStep, splitWs,
      splitWsStep, wrapRawLine, wrapStep, measure_text_width, charAdvance,
      fontStd,
      (show ¬('a' = '\n') by decide), (show ¬('\t' = '\n') by decide),
      (show ¬('b' = '\n') by decide), (show ¬rustIsWs 'a' by decide),
      (show rustIsWs '\t' by decide), (show ¬rustIsWs 'b' by decide),
      (show ¬(' ' = '\t') by decide), (show ¬('a' = '\t') by decide),
      (show ¬('b' = '\t') by decide)])
